import Mathlib

/-
Verification of the multi-part stream abstraction of the Azure storage driver
(`src/azureplugin.cpp`).  The C++ functions are embedded as executable Lean
definitions: machine integers (`long long` / `tOffset`) become `Int` with the
explicit bound checks the source performs before any arithmetic that could
overflow, byte buffers become `List Nat`, the remote object store becomes an
explicit map from blob names to byte lists, and transport failures become
`Option`/outcome values.
-/

/-! ## Basic constants (azureplugin.cpp) -/

/-- `std::numeric_limits<long long>::max()`, the `max_val` used by `driver_fseek`
and the overflow guards of `driver_fread`. -/
def maxInt64 : Int := 2 ^ 63 - 1

/-- `std::numeric_limits<long long>::min()`, compared against in the `std::ios::end`
branch of `driver_fseek`. -/
def minInt64 : Int := -(2 ^ 63)

/-- The sentinel `-1` returned by `driver_fread` / `driver_fseek` on failure
(`kBadSize` in the driver headers). -/
def kBadSize : Int := -1

/-- A byte buffer.  Bytes are modelled as natural numbers; the only byte value the
code inspects is the newline `'\n' = 10`. -/
abbrev Bytes := List Nat

/-! ## Data model: the Reader (multipart index + cursor)

The `Reader` struct itself is declared in `azureplugin_internal.h`; the fields
below are exactly those `azureplugin.cpp` reads and writes
(`bucketname_`, `filename_`, `offset_`, `commonHeaderLength_`, `filenames_`,
`cumulativeSize_`). -/

structure Reader where
  bucketname_ : String
  filename_ : String
  offset_ : Int
  commonHeaderLength_ : Int
  filenames_ : List String
  cumulativeSize_ : List Int
deriving DecidableEq, Repr

/-- Modelled from the spec: `Reader`'s `total_size_` member is defined in
`azureplugin_internal.h`, which is not among the sources at hand; per §3 of the
spec the total logical size is the last cumulative logical size, or 0 when the
part list is empty. -/
def Reader.total_size_ (r : Reader) : Int := r.cumulativeSize_.getLastD 0

/-! ## driver_fseek -/

/-- The three `whence` values accepted by `driver_fseek`
(`std::ios::beg`, `std::ios::cur`, `std::ios::end`). -/
inductive Whence
  | beg
  | cur
  | seekEnd
deriving DecidableEq, Repr

/-- Outcome of a seek.  The source returns `kBadSize` for each failure but logs
distinct messages; `overflowErr` is the "Signed overflow prevented" path and
`invalidOffset` the "Invalid seek offset" path. -/
inductive SeekOutcome
  | ok (newOffset : Int)
  | overflowErr
  | invalidOffset
deriving DecidableEq, Repr

/-- `driver_fseek` (azureplugin.cpp:1320-1385), after the stream has been
identified as a reader.  The cursor is written only on success. -/
def driver_fseek (r : Reader) (offset : Int) (whence : Whence) : SeekOutcome × Reader :=
  match whence with
  | .beg =>
    let computed := offset
    if computed < 0 then (.invalidOffset, r)
    else (.ok computed, { r with offset_ := computed })
  | .cur =>
    if offset > maxInt64 - r.offset_ then (.overflowErr, r)
    else
      let computed := r.offset_ + offset
      if computed < 0 then (.invalidOffset, r)
      else (.ok computed, { r with offset_ := computed })
  | .seekEnd =>
    if 0 < r.total_size_ ∧ offset > maxInt64 - (r.total_size_ - 1) then (.overflowErr, r)
    else if offset = minInt64 ∧ r.total_size_ = 0 then (.overflowErr, r)
    else
      let computed := if r.total_size_ = 0 then offset else r.total_size_ - 1 + offset
      if computed < 0 then (.invalidOffset, r)
      else (.ok computed, { r with offset_ := computed })

/-! ## Transport model

`DownloadRange` from the object store (`BlobClient::DownloadTo` with an
`HttpRange`) is a collaborator.  It is modelled as a function from blob name,
range start and range length to the downloaded bytes; `none` is a transport
failure (a thrown `StorageException`). -/

abbrev Download := String → Int → Int → Option Bytes

/-- The transport induced by a concrete store (a map from blob names to
contents): an in-range download returns exactly the requested bytes, anything
else (unknown blob, negative or out-of-range request) is a transport failure. -/
def storeDownload (store : String → Option Bytes) : Download := fun name start len =>
  match store name with
  | none => none
  | some bytes =>
    if 0 ≤ start ∧ 0 ≤ len ∧ start.toNat + len.toNat ≤ bytes.length then
      some ((bytes.drop start.toNat).take len.toNat)
    else none

/-! ## ReadBytesInFile (azureplugin.cpp:921-1001) -/

/-- `std::upper_bound(cumul_sizes.begin(), cumul_sizes.end(), offset)` as the
distance from `begin()`: on a non-decreasing list this is the index of the
first element strictly greater than `offset`. -/
def upperBoundIdx (l : List Int) (x : Int) : Nat :=
  (l.takeWhile (fun c => decide (c ≤ x))).length

/-- Status of a `ReadBytesInFile` call.  `outOfParts` models the undefined
behaviour of the C++ `while (to_read)` loop running past the last part (the
vector accesses would be out of bounds); it is unreachable whenever the request
fits in the remaining logical data. -/
inductive ReadStatus
  | ok
  | transportError
  | outOfParts
deriving DecidableEq, Repr

/-- Result of `ReadBytesInFile`: the reader's cursor after the call and the
bytes accumulated into the caller's buffer. -/
structure ReadOutcome where
  status : ReadStatus
  offset : Int
  buffer : Bytes
deriving DecidableEq, Repr

/-- The `while (to_read)` loop of `ReadBytesInFile`: each iteration advances to
the next part and reads `min(to_read, cumul[idx] - cumul[idx-1])` bytes from
physical offset `common_header_length`.  On a transport failure the cursor is
restored to `offsetBak` (`recover_offset`).  `fuel` only bounds the recursion;
it is at least the number of parts, so exhausting it is the out-of-bounds case
of the source. -/
def readLoop (dl : Download) (cumul : List Int) (files : List String) (hlen : Int)
    (offsetBak : Int) (fuel : Nat) (idx : Nat) (toRead : Int) (offset : Int)
    (buffer : Bytes) : ReadOutcome :=
  if toRead = 0 then ⟨.ok, offset, buffer⟩
  else
    match fuel with
    | 0 => ⟨.outOfParts, offset, buffer⟩
    | fuel' + 1 =>
      let idx' := idx + 1
      let len := min toRead (cumul.getD idx' 0 - cumul.getD idx 0)
      match dl (files.getD idx' "") hlen len with
      | none => ⟨.transportError, offsetBak, buffer⟩
      | some bytes =>
        readLoop dl cumul files hlen offsetBak fuel' idx' (toRead - len) (offset + len)
          (buffer ++ bytes)

/-- `ReadBytesInFile(multifile, buffer, to_read)`: locate the part containing
the cursor via `upper_bound`, read the first chunk from physical offset
`offset` (part 0) or `offset - cumul[idx-1] + common_header_length` (later
parts), then continue part by part.  On a transport failure during the first
chunk the cursor keeps its entry value. -/
def readBytesInFile (dl : Download) (r : Reader) (toRead : Int) : ReadOutcome :=
  let cumul := r.cumulativeSize_
  let hlen := r.commonHeaderLength_
  let files := r.filenames_
  let offset := r.offset_
  let idx := upperBoundIdx cumul offset
  let fileStart := if idx = 0 then offset else offset - cumul.getD (idx - 1) 0 + hlen
  let readLength := min toRead (cumul.getD idx 0 - offset)
  match dl (files.getD idx "") fileStart readLength with
  | none => ⟨.transportError, offset, []⟩
  | some bytes =>
    readLoop dl cumul files hlen offset files.length idx (toRead - readLength)
      (offset + readLength) bytes

/-! ## driver_fread (azureplugin.cpp:1398-1472) -/

/-- `WillSizeCountProductOverflow` (azureplugin.cpp:396-400): `size_t` division
guard against `size * count` exceeding `max_prod_usable = (size_t)max_int64`. -/
def willSizeCountProductOverflow (size count : Nat) : Bool :=
  decide ((2 ^ 63 - 1) / size < count) || decide ((2 ^ 63 - 1) / count < size)

/-- `driver_fread(ptr, size, count, stream)` once `stream` has been identified
as a reader: argument validation, the two overflow guards, the
`offset >= total_size` end-of-data error, the clamp of the requested length to
the remaining data, and the call to `ReadBytesInFile`.  Returns the sentinel
result (`kBadSize`, `0`, or the clamped byte count) together with the reader
after the call. -/
def driver_fread (dl : Download) (r : Reader) (size count : Nat) : Int × Reader :=
  if size = 0 then (kBadSize, r)
  else if count = 0 then ((0 : Int), r)
  else if willSizeCountProductOverflow size count then (kBadSize, r)
  else
    let toRead : Int := ((size * count : Nat) : Int)
    if r.offset_ > maxInt64 - toRead then (kBadSize, r)
    else if r.offset_ ≥ r.total_size_ then (kBadSize, r)
    else
      let toRead' := if r.offset_ + toRead > r.total_size_ then r.total_size_ - r.offset_
        else toRead
      let outcome := readBytesInFile dl r toRead'
      if outcome.status = .ok then (toRead', { r with offset_ := outcome.offset })
      else (kBadSize, { r with offset_ := outcome.offset })

/-! ## Header detection and the multifile size query -/

/-- `FindHeader` (azureplugin.cpp:740-781).  The source reads the first part in
10 MiB blocks, stopping at the first block that contains a newline; the net
result is the prefix of the part up to and including its first newline byte, or
nothing when the part holds no newline at all. -/
def findHeader (part : Bytes) : Option Bytes :=
  match part.findIdx? (fun b => b == 10) with
  | some i => some (part.take (i + 1))
  | none => none

/-- The buffer-filling `ReadPart` overload (azureplugin.cpp:721-727) used by
`IsSameHeader`: `DownloadTo(dest.data(), dest.size(), range [0, dest.size()))`
overwrites the first `min(|buffer|, |part|)` bytes of `buffer` with the start
of `part` and leaves the rest of the buffer untouched. -/
def readPartInto (part buffer : Bytes) : Bytes :=
  let m := min buffer.length part.length
  part.take m ++ buffer.drop m

/-- One listed blob (`Azure::Storage::Blobs::Models::BlobItem`): its name, its
`BlobSize`, and its soft-deletion flag. -/
structure BlobItem where
  name : String
  size : Int
  isDeleted : Bool
deriving DecidableEq, Repr

/-- `IsSameHeader` (azureplugin.cpp:783-789): re-read the start of the blob
into the shared `part_buffer` and compare the whole buffer against the detected
header.  `none` is a transport failure while reading. -/
def isSameHeader (store : String → Option Bytes) (name : String) (header buffer : Bytes) :
    Option (Bool × Bytes) :=
  match store name with
  | none => none
  | some part =>
    let buffer' := readPartInto part buffer
    some (buffer' == header, buffer')

/-- The `for (i = 1; i < blob_count; i++)` loop of the multifile branch of
`GetFileSize` (azureplugin.cpp:859-869): accumulate the raw sizes and, while
`same_headers` still holds, compare each part's start against the header
(short-circuit: once a mismatch is found no further header read is issued). -/
def checkTailBlobs (store : String → Option Bytes) (header : Bytes) :
    List BlobItem → Int → Bool → Bytes → Option (Int × Bool)
  | [], total, same, _ => some (total, same)
  | b :: bs, total, same, buffer =>
    if same then
      match isSameHeader store b.name header buffer with
      | none => none
      | some (eq, buffer') => checkTailBlobs store header bs (total + b.size) eq buffer'
    else checkTailBlobs store header bs (total + b.size) same buffer

/-- The multifile branch of `GetFileSize` (azureplugin.cpp:828-884), entered
with the non-empty filtered blob list: a single match returns its raw size; for
several parts, detect the header of the first part (an absent newline aborts
with "Error while reading header of first file"), compare the remaining parts,
and elide `(blob_count - 1) * header_size` only when every part agreed. -/
def getFileSizeMulti (store : String → Option Bytes) (blobs : List BlobItem) : Option Int :=
  match blobs with
  | [] => none
  | [b] => some b.size
  | b0 :: rest =>
    match store b0.name with
    | none => none
    | some part0 =>
      match findHeader part0 with
      | none => none
      | some header =>
        let headerSize := header.length
        match checkTailBlobs store header rest b0.size true (List.replicate headerSize 0) with
        | none => none
        | some (total, same) =>
          some (if same then total - (((blobs.length - 1) * headerSize : Nat) : Int) else total)

/-- The index-building loop of the multifile branch of `MakeReaderPtr`
(azureplugin.cpp:1095-1107): collect part names, raw cumulative sizes, and the
shared-header flag, threading the same comparison buffer as `GetFileSize`. -/
def buildTailIndex (store : String → Option Bytes) (header : Bytes) :
    List BlobItem → List String → List Int → Bool → Bytes →
    Option (List String × List Int × Bool)
  | [], names, cumul, same, _ => some (names, cumul, same)
  | b :: bs, names, cumul, same, buffer =>
    let names' := names ++ [b.name]
    let cumul' := cumul ++ [cumul.getLastD 0 + b.size]
    if same then
      match isSameHeader store b.name header buffer with
      | none => none
      | some (eq, buffer') => buildTailIndex store header bs names' cumul' eq buffer'
    else buildTailIndex store header bs names' cumul' same buffer

/-- `MakeReaderPtr` (azureplugin.cpp:1008-1130) from the filtered blob list on:
one match builds a single-part reader with no header; several matches detect
the first part's header (aborting when it has no newline), build the raw
cumulative sizes, and subtract `i * header_size` from entry `i` only when all
parts shared the header.  `common_header_length_` is set to the detected header
length unconditionally. -/
def makeReaderPtrMulti (store : String → Option Bytes) (bucket object : String)
    (blobs : List BlobItem) : Option Reader :=
  match blobs with
  | [] => none
  | [b] => some ⟨bucket, object, 0, 0, [b.name], [b.size]⟩
  | b0 :: rest =>
    match store b0.name with
    | none => none
    | some part0 =>
      match findHeader part0 with
      | none => none
      | some header =>
        let headerSize := header.length
        match buildTailIndex store header rest [b0.name] [b0.size] true
            (List.replicate headerSize 0) with
        | none => none
        | some (names, cumul, same) =>
          let cumul' := if same then
              cumul.mapIdx (fun i c => c - ((i * headerSize : Nat) : Int))
            else cumul
          some ⟨bucket, object, 0, (headerSize : Int), names, cumul'⟩

/-! ## Writers (MakeWriterPtr, azureplugin.cpp:1138-1181) -/

/-- The `Writer` stream: container name and the physical part it is bound to. -/
structure WriterStream where
  bucketname_ : String
  filename_ : String
deriving DecidableEq, Repr

/-- The remote container contents, as visible to the writer-opening path: which
blobs exist (with their bytes). -/
structure BlobStore where
  blobs : List (String × Bytes)
deriving DecidableEq, Repr

/-- Whether a blob with this name exists in the container. -/
def BlobStore.existsBlob (st : BlobStore) (name : String) : Bool :=
  (st.blobs.lookup name).isSome

/-- `AppendBlobClient::CreateIfNotExists`: creates an empty append blob when
the name is absent (`Created = true`) and leaves the container untouched when
it already exists (`Created = false`). -/
def createIfNotExists (st : BlobStore) (name : String) : Bool × BlobStore :=
  if st.existsBlob name then (false, st)
  else (true, ⟨(name, []) :: st.blobs⟩)

/-- The `WriterMode::kAppend` branch of `MakeWriterPtr`: `CreateIfNotExists`,
and `Created == false` is only a debug log, never an error. -/
def makeWriterPtrAppend (st : BlobStore) (bucket object : String) :
    Option WriterStream × BlobStore :=
  let c := createIfNotExists st object
  (some ⟨bucket, object⟩, c.2)

/-- The `WriterMode::kWrite` branch of `MakeWriterPtr`: `Create`, failing with
the raw response when the service reports `Created == false`.  The `Created`
flag reported by the collaborator is the parameter. -/
def makeWriterPtrWrite (createdFlag : Bool) (bucket object : String) : Option WriterStream :=
  if createdFlag = false then none else some ⟨bucket, object⟩

/-! ## Handle registry (azureplugin.cpp:74-208, 1294-1318) -/

/-- One handle vector (`StreamVec`): entries are (handle identity, stream
payload).  Handle identity models the raw pointer value compared by
`FindHandle`; the payload stands for the owned stream object. -/
abbrev HandleList := List (Nat × Nat)

/-- `FindHandle` (azureplugin.cpp:187-192) as the index of the first entry with
the given identity. -/
def findIdxOf (h : Nat) (l : HandleList) : Option Nat :=
  l.findIdx? (fun e => e.1 == h)

/-- `EraseRemove` (azureplugin.cpp:204-208): overwrite the found entry with the
last one and pop the back. -/
def eraseRemove (i : Nat) (l : HandleList) : HandleList :=
  (l.set i (l.getLastD (0, 0))).dropLast

/-- The two live-handle vectors, `active_reader_handles` and
`active_writer_handles`. -/
structure Registry where
  readers : HandleList
  writers : HandleList
deriving DecidableEq, Repr

/-- `driver_fclose`'s result: `kCloseSuccess` or `kCloseEOF` ("Cannot identify
stream", the NotFound case). -/
inductive CloseResult
  | closeSuccess
  | closeEOF
deriving DecidableEq, Repr

/-- `driver_fclose` (azureplugin.cpp:1294-1318): look the handle up among the
readers, then among the writers; remove it via `EraseRemove` when found. -/
def driver_fclose (h : Nat) (st : Registry) : CloseResult × Registry :=
  match findIdxOf h st.readers with
  | some i => (.closeSuccess, { st with readers := eraseRemove i st.readers })
  | none =>
    match findIdxOf h st.writers with
    | some i => (.closeSuccess, { st with writers := eraseRemove i st.writers })
    | none => (.closeEOF, st)

/-- What a handle resolves to: the reader payload (`FindReader` hit), the
writer payload (`FindWriter` hit), or not found. -/
inductive Resolved
  | reader (payload : Nat)
  | writer (payload : Nat)
  | notFound
deriving DecidableEq, Repr

/-- Handle resolution as performed by the stream operations
(`FindReader` / `FindWriter`, azureplugin.cpp:194-202). -/
def resolve (h : Nat) (st : Registry) : Resolved :=
  match st.readers.lookup h with
  | some p => .reader p
  | none =>
    match st.writers.lookup h with
    | some p => .writer p
    | none => .notFound

/-! ## driver_fopen, append mode (azureplugin.cpp:1252-1280) -/

/-- `FilterList` (azureplugin.cpp:456-495): keep the listed blobs that are not
soft-deleted and match the pattern (the glob matcher is a collaborator,
abstracted as `matches`), in listing order; an empty result is the `NotFound`
failure. -/
def filterList (listing : List BlobItem) (globMatch : String → Bool) :
    Option (List BlobItem) :=
  let res := listing.filter (fun it => !it.isDeleted && globMatch it.name)
  if res.isEmpty then none else some res

/-- Placeholder blob item (the `back()` of a non-empty list never falls back to
it). -/
def dfltBlobItem : BlobItem := ⟨"", 0, false⟩

/-- The `case 'a'` branch of `driver_fopen`: when the object name holds an
unescaped glob metacharacter (`FindPatternSpecialChar` succeeded,
`specialPos`), filter the listing and bind the writer to the *last* match
(`filter_res.GetValue().back().Name`); a failed filter aborts without
registering anything.  On success the writer is created in append mode and
pushed onto the writer handle vector. -/
def fopenAppend (listing : List BlobItem) (globMatch : String → Bool)
    (specialPos : Option Nat) (st : BlobStore) (bucket object : String)
    (writers : List WriterStream) : Option WriterStream × List WriterStream × BlobStore :=
  let target? : Option String :=
    match specialPos with
    | some _ =>
      match filterList listing globMatch with
      | none => none
      | some lst => some (lst.getLastD dfltBlobItem).name
    | none => some object
  match target? with
  | none => (none, writers, st)
  | some target =>
    let c := createIfNotExists st target
    let w : WriterStream := ⟨bucket, target⟩
    (some w, writers ++ [w], c.2)

/-! ## Spec-side description of the elided logical stream

These definitions follow the spec's words (§3, §4.4, glossary) and are the
yardstick the code is compared against in C2/C4: the logical stream is the
first part followed by every later part with its first `hlen` bytes elided,
and the cumulative logical sizes accumulate `raw-size − hlen` for parts after
the first. -/

/-- The elided concatenation of the parts' raw bytes. -/
def elide (hlen : Nat) : List Bytes → Bytes
  | [] => []
  | p :: ps => p ++ (ps.map (List.drop hlen)).flatten

/-- Sum of the post-elision sizes of a list of non-first parts. -/
def sumLogical (hlen : Nat) (qs : List Bytes) : Nat :=
  (qs.map (fun q => q.length - hlen)).sum

/-- Cumulative logical sizes of the non-first parts, starting from `acc`. -/
def cumulAux (hlen acc : Nat) : List Bytes → List Nat
  | [] => []
  | q :: qs => (acc + (q.length - hlen)) :: cumulAux hlen (acc + (q.length - hlen)) qs

/-- Cumulative logical sizes of a part list: part 0 counts raw, later parts
count `raw − hlen`. -/
def cumulOf (hlen : Nat) : List Bytes → List Nat
  | [] => []
  | p :: ps => p.length :: cumulAux hlen p.length ps

/-- Total logical size of a part list. -/
def totalLogical (hlen : Nat) (parts : List Bytes) : Nat :=
  (cumulOf hlen parts).getLastD 0

/-- The cumulative logical sizes as the `long long` list stored in the
`Reader` (`cumulativeSize_`). -/
def castList (l : List Nat) : List Int := l.map Int.ofNat

/-! ## Claim theorems (seek) -/

/-- C6 counterexample: the claim asserts `Seek(Current, max_int64)` fails with
`Overflow` for every cursor offset `o ≥ 0`, but at `o = 0` the guard
`offset > max_val - reader.offset_` is false and the seek succeeds, moving the
cursor to `max_int64`. -/
theorem C6_counterexample_seek_cur_zero :
    driver_fseek ⟨"b", "o", 0, 0, ["o"], [5]⟩ maxInt64 .cur =
      (.ok maxInt64, ⟨"b", "o", maxInt64, 0, ["o"], [5]⟩) := by
  decide

/-- C6 (amended): for every reader whose cursor offset is strictly positive —
in particular offset 5 — `Seek(Current, max_int64)` fails on the pre-addition
overflow comparison and leaves the cursor unchanged; at offset 0 the seek
succeeds instead. -/
theorem C6_seek_cur_overflow_amended (r : Reader) (h : 0 < r.offset_) :
    driver_fseek r maxInt64 .cur = (.overflowErr, r) := by
  simp only [driver_fseek]
  rw [if_pos (by omega)]

/-- Witness for C6: a reader with cursor offset 5. -/
theorem C6_seek_cur_overflow_witness :
    (0 : Int) < 5 ∧
      driver_fseek ⟨"b", "o", 5, 0, ["o"], [9]⟩ maxInt64 .cur =
        (.overflowErr, ⟨"b", "o", 5, 0, ["o"], [9]⟩) :=
  ⟨by decide, C6_seek_cur_overflow_amended ⟨"b", "o", 5, 0, ["o"], [9]⟩ (by decide)⟩

/-- C7: on a zero-length logical stream, `Seek(End, 0)` succeeds and sets the
cursor to 0, `Seek(End, -1)` fails as an invalid (negative) offset leaving the
cursor unchanged, and `Seek(End, min_int64)` is rejected by the dedicated
overflow guard rather than wrapping. -/
theorem C7_seek_end_zero_stream (r : Reader) (h : r.total_size_ = 0) :
    driver_fseek r 0 .seekEnd = (.ok 0, { r with offset_ := 0 }) ∧
    driver_fseek r (-1) .seekEnd = (.invalidOffset, r) ∧
    driver_fseek r minInt64 .seekEnd = (.overflowErr, r) := by
  refine ⟨?_, ?_, ?_⟩ <;>
    simp [driver_fseek, h, minInt64, maxInt64]

/-- Witness for C7: a reader over an empty part list (total logical size 0). -/
theorem C7_seek_end_zero_stream_witness :
    (Reader.total_size_ ⟨"b", "o", 0, 0, [], []⟩ = 0) ∧
      driver_fseek ⟨"b", "o", 0, 0, [], []⟩ 0 .seekEnd =
        (.ok 0, ⟨"b", "o", 0, 0, [], []⟩) :=
  ⟨by decide, (C7_seek_end_zero_stream ⟨"b", "o", 0, 0, [], []⟩ (by decide)).1⟩

/-! ## Claim theorems (cursor discipline, C5) -/

/-- On a transport failure inside the continuation loop the cursor is restored
to the backup taken at call entry. -/
theorem readLoop_offset_on_transport_failure (dl : Download) (cumul : List Int)
    (files : List String) (hlen bak : Int) :
    ∀ (fuel idx : Nat) (toRead offset : Int) (buffer : Bytes),
    (readLoop dl cumul files hlen bak fuel idx toRead offset buffer).status =
      .transportError →
    (readLoop dl cumul files hlen bak fuel idx toRead offset buffer).offset = bak := by
  intro fuel
  induction fuel with
  | zero =>
    intro idx toRead offset buffer h
    rw [readLoop] at h ⊢
    split at h
    · cases h
    · cases h
  | succ fuel ih =>
    intro idx toRead offset buffer h
    rw [readLoop] at h ⊢
    split at h
    · cases h
    · rename_i hne
      rw [if_neg hne]
      cases hdl : dl (files.getD (idx + 1) "")
          hlen (min toRead (cumul.getD (idx + 1) 0 - cumul.getD idx 0)) with
      | none => simp only [hdl]
      | some bytes =>
        simp only [hdl] at h ⊢
        exact ih _ _ _ _ h

/-- C5: whenever `ReadBytesInFile` ends in a transport failure — including a
failure after some chunks of a multi-part spanning read were already
transferred — the reader's cursor after the call equals its value at call
entry. -/
theorem C5_cursor_restored_on_transport_failure (dl : Download) (r : Reader)
    (toRead : Int)
    (h : (readBytesInFile dl r toRead).status = .transportError) :
    (readBytesInFile dl r toRead).offset = r.offset_ := by
  rw [readBytesInFile] at h ⊢
  cases hdl : dl (r.filenames_.getD (upperBoundIdx r.cumulativeSize_ r.offset_) "")
      (if upperBoundIdx r.cumulativeSize_ r.offset_ = 0 then r.offset_
       else r.offset_ -
           r.cumulativeSize_.getD (upperBoundIdx r.cumulativeSize_ r.offset_ - 1) 0 +
           r.commonHeaderLength_)
      (min toRead
        (r.cumulativeSize_.getD (upperBoundIdx r.cumulativeSize_ r.offset_) 0 -
          r.offset_)) with
  | none => simp only [hdl]
  | some bytes =>
    simp only [hdl] at h ⊢
    exact readLoop_offset_on_transport_failure _ _ _ _ _ _ _ _ _ _ h

/-- Witness for C5: a two-part reader whose first chunk downloads fine and
whose second chunk fails mid-read; the cursor is back at its entry value 0. -/
theorem C5_cursor_restored_witness :
    ((readBytesInFile (fun name _ _ => if name = "a" then some [1, 2] else none)
        ⟨"b", "o", 0, 0, ["a", "c"], [2, 4]⟩ 4).status = .transportError) ∧
      (readBytesInFile (fun name _ _ => if name = "a" then some [1, 2] else none)
          ⟨"b", "o", 0, 0, ["a", "c"], [2, 4]⟩ 4).offset = 0 :=
  ⟨by decide,
    C5_cursor_restored_on_transport_failure
      (fun name _ _ => if name = "a" then some [1, 2] else none)
      ⟨"b", "o", 0, 0, ["a", "c"], [2, 4]⟩ 4 (by decide)⟩

/-! ## Claim theorems (writer open modes, C8) -/

/-- C8: opening a writer in `Append` mode on an already-existing part succeeds
and leaves the container untouched (creation is skipped, nothing truncated),
while opening in `Write` mode fails whenever the create operation reports the
part was not freshly created. -/
theorem C8_writer_open_modes (st : BlobStore) (bucket object : String)
    (hex : st.existsBlob object = true) :
    makeWriterPtrAppend st bucket object = (some ⟨bucket, object⟩, st) ∧
    ∀ b o : String, makeWriterPtrWrite false b o = none := by
  constructor
  · simp [makeWriterPtrAppend, createIfNotExists, hex]
  · intro b o
    simp [makeWriterPtrWrite]

/-- Witness for C8: a container already holding the part `"part"` with some
content; append-mode open keeps that content intact. -/
theorem C8_writer_open_modes_witness :
    (BlobStore.existsBlob ⟨[("part", [7, 8])]⟩ "part" = true) ∧
      makeWriterPtrAppend ⟨[("part", [7, 8])]⟩ "bkt" "part" =
        (some ⟨"bkt", "part"⟩, ⟨[("part", [7, 8])]⟩) :=
  ⟨by decide, (C8_writer_open_modes ⟨[("part", [7, 8])]⟩ "bkt" "part" (by decide)).1⟩

/-! ## Claim theorems (header-less multifiles, C1) -/

/-- C1 counterexample: a two-part file whose first part holds the single byte
65 (no newline).  The claim says the size query succeeds with no elision
(total = 2); the code instead aborts both the size query and the reader
construction with "Error while reading header of first file". -/
theorem C1_counterexample_headerless :
    getFileSizeMulti
        (fun n => if n = "p0" then some [65] else if n = "p1" then some [66] else none)
        [⟨"p0", 1, false⟩, ⟨"p1", 1, false⟩] = none ∧
      makeReaderPtrMulti
        (fun n => if n = "p0" then some [65] else if n = "p1" then some [66] else none)
        "bkt" "p*" [⟨"p0", 1, false⟩, ⟨"p1", 1, false⟩] = none := by
  constructor <;> decide

/-- C1 (amended): for every multi-part logical file (two or more matched
parts) whose first part contains no newline byte, index construction and the
size query *fail* with an error — they do not return `shared = false`; only
single-part files skip header detection. -/
theorem C1_headerless_multifile_fails (store : String → Option Bytes)
    (bucket object : String) (b0 b1 : BlobItem) (rest : List BlobItem) (part0 : Bytes)
    (hstore : store b0.name = some part0)
    (hnl : ∀ b ∈ part0, b ≠ 10) :
    getFileSizeMulti store (b0 :: b1 :: rest) = none ∧
    makeReaderPtrMulti store bucket object (b0 :: b1 :: rest) = none := by
  have hf : findHeader part0 = none := by
    rw [findHeader]
    rw [List.findIdx?_eq_none_iff.mpr]
    intro a ha
    simpa using hnl a ha
  constructor
  · simp only [getFileSizeMulti, hstore, hf]
  · simp only [makeReaderPtrMulti, hstore, hf]

/-- Witness for C1: the two-part store of the counterexample satisfies the
amended theorem's hypotheses. -/
theorem C1_headerless_multifile_witness :
    ((fun n => if n = "p0" then some [65] else if n = "p1" then some [66] else none)
        (BlobItem.name ⟨"p0", 1, false⟩) = some [65]) ∧
      getFileSizeMulti
        (fun n => if n = "p0" then some [65] else if n = "p1" then some [66] else none)
        [⟨"p0", 1, false⟩, ⟨"p1", 1, false⟩] = none :=
  ⟨by decide,
    (C1_headerless_multifile_fails
      (fun n => if n = "p0" then some [65] else if n = "p1" then some [66] else none)
      "bkt" "p*" ⟨"p0", 1, false⟩ ⟨"p1", 1, false⟩ [] [65] (by decide)
      (by decide)).1⟩

/-! ## Claim theorems (handle registry, C9) -/

/-- A lookup misses exactly when the identity is not among the keys. -/
theorem handleLookup_eq_none_iff (l : HandleList) (k : Nat) :
    l.lookup k = none ↔ k ∉ l.map Prod.fst := by
  induction l with
  | nil => simp
  | cons e t ih =>
    obtain ⟨a, b⟩ := e
    rw [List.lookup_cons]
    by_cases hka : k = a
    · subst hka
      simp
    · have hba : (k == a) = false := beq_eq_false_iff_ne.mpr hka
      simp [hba, ih, hka]

/-- Under unique keys, a lookup hit is exactly membership of the entry. -/
theorem handleLookup_eq_some_iff (l : HandleList) (nod : (l.map Prod.fst).Nodup)
    (k v : Nat) : l.lookup k = some v ↔ (k, v) ∈ l := by
  induction l with
  | nil => simp
  | cons e t ih =>
    obtain ⟨a, b⟩ := e
    simp only [List.map_cons, List.nodup_cons] at nod
    rw [List.lookup_cons]
    by_cases hka : k = a
    · subst hka
      simp only [beq_self_eq_true, cond_true, List.mem_cons, Prod.mk.injEq, true_and,
        Option.some.injEq]
      constructor
      · intro hv
        exact Or.inl hv.symm
      · rintro (rfl | ht)
        · rfl
        · exact absurd (List.mem_map_of_mem Prod.fst ht) nod.1
    · have hba : (k == a) = false := beq_eq_false_iff_ne.mpr hka
      simp [hba, ih nod.2, hka]

/-- `l` splits at any valid index into prefix, element, suffix. -/
theorem handle_decomp (l : HandleList) (i : Nat) (hi : i < l.length) :
    l.take i ++ l.get ⟨i, hi⟩ :: l.drop (i + 1) = l := by
  conv_rhs => rw [← List.take_append_drop i l]
  rw [← List.getElem_cons_drop l i hi]
  rfl

/-- `EraseRemove` keeps exactly the other entries: the swap-with-last-and-pop
result is a permutation of deleting index `i`. -/
theorem eraseRemove_perm (l : HandleList) (i : Nat) (hi : i < l.length) :
    (eraseRemove i l).Perm (l.eraseIdx i) := by
  have hdecomp := handle_decomp l i hi
  rw [eraseRemove, List.set_eq_take_cons_drop _ hi, List.eraseIdx_eq_take_drop_succ]
  rcases List.eq_nil_or_concat (l.drop (i + 1)) with hnil | ⟨ds, y, hds⟩
  · have hlast : l.getLastD (0, 0) = l.get ⟨i, hi⟩ := by
      conv_lhs => rw [← hdecomp, hnil]
      exact List.getLastD_concat _ _ _
    rw [hnil, hlast, List.dropLast_concat]
    simp
  · rw [List.concat_eq_append] at hds
    have hlast : l.getLastD (0, 0) = y := by
      conv_lhs => rw [← hdecomp, hds]
      rw [show l.take i ++ l.get ⟨i, hi⟩ :: (ds ++ [y]) =
          (l.take i ++ l.get ⟨i, hi⟩ :: ds) ++ [y] by simp]
      exact List.getLastD_concat _ _ _
    rw [hlast, hds]
    rw [show l.take i ++ y :: (ds ++ [y]) = (l.take i ++ y :: ds) ++ [y] by simp]
    rw [List.dropLast_concat]
    exact (List.Perm.append_left _ (List.perm_append_singleton y ds).symm)

/-- After deleting index `i`, its key is gone (keys were unique). -/
theorem key_not_mem_eraseIdx (l : HandleList) (i : Nat) (hi : i < l.length)
    (nod : (l.map Prod.fst).Nodup) :
    (l.get ⟨i, hi⟩).1 ∉ (l.eraseIdx i).map Prod.fst := by
  have hdecomp := handle_decomp l i hi
  rw [List.eraseIdx_eq_take_drop_succ]
  rw [← hdecomp] at nod
  simp only [List.map_append, List.map_cons, List.nodup_append, List.nodup_cons] at nod
  simp only [List.map_append, List.mem_append]
  rintro (hA | hB)
  · exact nod.2.2 hA (List.mem_cons_self _ _)
  · exact nod.2.1.1 hB

/-- Entries other than the one at index `i` survive `eraseIdx` unchanged. -/
theorem mem_eraseIdx_iff_of_ne (l : HandleList) (i : Nat) (hi : i < l.length)
    (e : Nat × Nat) (hne : e ≠ l.get ⟨i, hi⟩) : e ∈ l.eraseIdx i ↔ e ∈ l := by
  have hdecomp := handle_decomp l i hi
  rw [List.eraseIdx_eq_take_drop_succ]
  constructor
  · intro hm
    rw [← hdecomp]
    rcases List.mem_append.mp hm with h1 | h2
    · exact List.mem_append_left _ h1
    · exact List.mem_append_right _ (List.mem_cons_of_mem _ h2)
  · intro hm
    rw [← hdecomp] at hm
    rcases List.mem_append.mp hm with h1 | h2
    · exact List.mem_append_left _ h1
    · rcases List.mem_cons.mp h2 with h3 | h4
      · exact absurd h3 hne
      · exact List.mem_append_right _ h4

/-- Keys of the erased list stay unique. -/
theorem nodup_keys_eraseRemove (l : HandleList) (i : Nat) (hi : i < l.length)
    (nod : (l.map Prod.fst).Nodup) :
    ((eraseRemove i l).map Prod.fst).Nodup := by
  have h1 : ((l.eraseIdx i).map Prod.fst).Nodup :=
    (((List.eraseIdx_sublist l i).map Prod.fst).nodup nod)
  exact (((eraseRemove_perm l i hi).map Prod.fst).nodup_iff).mpr h1

/-- Lookups of other keys are unchanged by `EraseRemove`. -/
theorem lookup_eraseRemove_ne (l : HandleList) (i : Nat) (hi : i < l.length)
    (nod : (l.map Prod.fst).Nodup) (k : Nat) (hk : k ≠ (l.get ⟨i, hi⟩).1) :
    (eraseRemove i l).lookup k = l.lookup k := by
  have hperm := eraseRemove_perm l i hi
  have nodup' := nodup_keys_eraseRemove l i hi nod
  cases hl : l.lookup k with
  | some v =>
    have hm : (k, v) ∈ l := (handleLookup_eq_some_iff l nod k v).mp hl
    have hne : (k, v) ≠ l.get ⟨i, hi⟩ := by
      intro he
      exact hk (by rw [← he])
    have hm' : (k, v) ∈ eraseRemove i l :=
      hperm.mem_iff.mpr ((mem_eraseIdx_iff_of_ne l i hi _ hne).mpr hm)
    exact (handleLookup_eq_some_iff _ nodup' k v).mpr hm'
  | none =>
    have hnk : k ∉ l.map Prod.fst := (handleLookup_eq_none_iff l k).mp hl
    apply (handleLookup_eq_none_iff _ k).mpr
    intro hmem
    apply hnk
    obtain ⟨e, he, hfst⟩ := List.mem_map.mp hmem
    have : e ∈ l.eraseIdx i := hperm.mem_iff.mp he
    have : e ∈ l := (List.eraseIdx_sublist l i).mem this
    exact hfst ▸ List.mem_map_of_mem Prod.fst this

/-- The erased key is absent from the keys of the `EraseRemove` result. -/
theorem key_not_mem_eraseRemove (l : HandleList) (i : Nat) (hi : i < l.length)
    (nod : (l.map Prod.fst).Nodup) :
    (l.get ⟨i, hi⟩).1 ∉ (eraseRemove i l).map Prod.fst := by
  intro hmem
  exact key_not_mem_eraseIdx l i hi nod
    (((eraseRemove_perm l i hi).map Prod.fst).mem_iff.mp hmem)

/-- A handle absent from the keys is not found by `FindHandle`. -/
theorem findIdxOf_eq_none_of_not_mem (l : HandleList) (k : Nat)
    (hk : k ∉ l.map Prod.fst) : findIdxOf k l = none := by
  rw [findIdxOf]
  apply List.findIdx?_eq_none_iff.mpr
  intro e he
  apply beq_eq_false_iff_ne.mpr
  intro hek
  exact hk (hek ▸ List.mem_map_of_mem Prod.fst he)

/-- A failed `FindHandle` means the handle is absent from the keys. -/
theorem not_mem_keys_of_findIdxOf_eq_none (l : HandleList) (k : Nat)
    (hf : findIdxOf k l = none) : k ∉ l.map Prod.fst := by
  rw [findIdxOf] at hf
  have hall := List.findIdx?_eq_none_iff.mp hf
  intro hmem
  obtain ⟨e, he, hfst⟩ := List.mem_map.mp hmem
  have hb := hall e he
  rw [hfst] at hb
  simp at hb

/-- C9: after a successful close of handle `h` (all live handle identities
being distinct), a second close of `h` returns the NotFound result, resolving
`h` returns NotFound, and every other handle resolves to exactly the stream it
resolved to before the close. -/
theorem C9_close_semantics (st : Registry) (h : Nat)
    (nod : ((st.readers ++ st.writers).map Prod.fst).Nodup)
    (hsucc : (driver_fclose h st).1 = .closeSuccess) :
    (driver_fclose h (driver_fclose h st).2).1 = .closeEOF ∧
      resolve h (driver_fclose h st).2 = .notFound ∧
      ∀ k, k ≠ h → resolve k (driver_fclose h st).2 = resolve k st := by
  simp only [List.map_append, List.nodup_append] at nod
  obtain ⟨nodR, nodW, disj⟩ := nod
  cases hfr : findIdxOf h st.readers with
  | some i =>
    obtain ⟨hi, hpi, -⟩ := List.findIdx?_eq_some_iff_getElem.mp hfr
    have hki : (st.readers.get ⟨i, hi⟩).1 = h := by
      simpa using hpi
    have hmemR : h ∈ st.readers.map Prod.fst := by
      rw [← hki]
      exact List.mem_map_of_mem Prod.fst (st.readers.get_mem _ _)
    have hnotW : h ∉ st.writers.map Prod.fst := fun hw => disj hmemR hw
    have hR' : h ∉ (eraseRemove i st.readers).map Prod.fst := by
      rw [← hki]
      exact key_not_mem_eraseRemove st.readers i hi nodR
    refine ⟨?_, ?_, ?_⟩
    · have e1 := findIdxOf_eq_none_of_not_mem _ h hR'
      have e2 := findIdxOf_eq_none_of_not_mem _ h hnotW
      simp only [driver_fclose, hfr, e1, e2]
    · have l1 : (eraseRemove i st.readers).lookup h = none :=
        (handleLookup_eq_none_iff _ _).mpr hR'
      have l2 : st.writers.lookup h = none := (handleLookup_eq_none_iff _ _).mpr hnotW
      simp only [driver_fclose, hfr, resolve, l1, l2]
    · intro k hk
      have l1 : (eraseRemove i st.readers).lookup k = st.readers.lookup k :=
        lookup_eraseRemove_ne st.readers i hi nodR k (by rw [hki]; exact hk)
      simp only [driver_fclose, hfr, resolve, l1]
  | none =>
    cases hfw : findIdxOf h st.writers with
    | none =>
      simp only [driver_fclose, hfr, hfw] at hsucc
      cases hsucc
    | some i =>
      obtain ⟨hi, hpi, -⟩ := List.findIdx?_eq_some_iff_getElem.mp hfw
      have hki : (st.writers.get ⟨i, hi⟩).1 = h := by
        simpa using hpi
      have hnotR : h ∉ st.readers.map Prod.fst := not_mem_keys_of_findIdxOf_eq_none _ _ hfr
      have hW' : h ∉ (eraseRemove i st.writers).map Prod.fst := by
        rw [← hki]
        exact key_not_mem_eraseRemove st.writers i hi nodW
      refine ⟨?_, ?_, ?_⟩
      · have e1 := findIdxOf_eq_none_of_not_mem _ h hnotR
        have e2 := findIdxOf_eq_none_of_not_mem _ h hW'
        simp only [driver_fclose, hfr, hfw, e1, e2]
      · have l1 : st.readers.lookup h = none := (handleLookup_eq_none_iff _ _).mpr hnotR
        have l2 : (eraseRemove i st.writers).lookup h = none :=
          (handleLookup_eq_none_iff _ _).mpr hW'
        simp only [driver_fclose, hfr, hfw, resolve, l1, l2]
      · intro k hk
        have l1 : (eraseRemove i st.writers).lookup k = st.writers.lookup k :=
          lookup_eraseRemove_ne st.writers i hi nodW k (by rw [hki]; exact hk)
        simp only [driver_fclose, hfr, hfw, resolve, l1]

/-- Witness for C9: a registry with two readers and one writer; closing handle
1 removes exactly that reader. -/
theorem C9_close_semantics_witness :
    ((driver_fclose 1 ⟨[(1, 10), (2, 20)], [(3, 30)]⟩).1 = .closeSuccess) ∧
      ((driver_fclose 1 (driver_fclose 1 ⟨[(1, 10), (2, 20)], [(3, 30)]⟩).2).1 = .closeEOF ∧
        resolve 1 (driver_fclose 1 ⟨[(1, 10), (2, 20)], [(3, 30)]⟩).2 = .notFound ∧
        ∀ k, k ≠ 1 → resolve k (driver_fclose 1 ⟨[(1, 10), (2, 20)], [(3, 30)]⟩).2 =
          resolve k ⟨[(1, 10), (2, 20)], [(3, 30)]⟩) :=
  ⟨by decide, C9_close_semantics ⟨[(1, 10), (2, 20)], [(3, 30)]⟩ 1 (by decide) (by decide)⟩

/-! ## Claim theorems (append-mode open on a glob pattern, C10) -/

/-- The default-carrying last element of a non-empty list is a member. -/
theorem getLastD_mem_of_ne_nil (l : List BlobItem) (d : BlobItem) (h : l ≠ []) :
    l.getLastD d ∈ l := by
  rcases List.eq_nil_or_concat l with rfl | ⟨L, b, rfl⟩
  · exact absurd rfl h
  · rw [List.concat_eq_append, List.getLastD_concat]
    exact List.mem_append_right _ (List.mem_singleton.mpr rfl)

/-- C10: when the object name of an append-mode open contains an unescaped
glob metacharacter, a failed filter (no live matching part) aborts the open —
no writer is registered and the container is untouched — and a successful
filter binds the writer to the *last* matching part in listing order: an
existing, non-deleted, pattern-matching part, not a fresh one (when the bound
name already exists in the container, nothing is created). -/
theorem C10_append_glob_last_part (listing : List BlobItem) (globMatch : String → Bool)
    (p : Nat) (st : BlobStore) (bucket object : String) (writers : List WriterStream) :
    (filterList listing globMatch = none →
      fopenAppend listing globMatch (some p) st bucket object writers =
        (none, writers, st)) ∧
    (∀ lst, filterList listing globMatch = some lst →
      (fopenAppend listing globMatch (some p) st bucket object writers).1 =
          some ⟨bucket, (lst.getLastD dfltBlobItem).name⟩ ∧
        (fopenAppend listing globMatch (some p) st bucket object writers).2.1 =
          writers ++ [⟨bucket, (lst.getLastD dfltBlobItem).name⟩] ∧
        lst.getLastD dfltBlobItem ∈ listing ∧
        globMatch (lst.getLastD dfltBlobItem).name = true ∧
        (lst.getLastD dfltBlobItem).isDeleted = false ∧
        (st.existsBlob (lst.getLastD dfltBlobItem).name = true →
          (fopenAppend listing globMatch (some p) st bucket object writers).2.2 = st)) := by
  constructor
  · intro hnone
    simp only [fopenAppend, hnone]
  · intro lst hlst
    have hmem : lst.getLastD dfltBlobItem ∈ listing.filter
        (fun it => !it.isDeleted && globMatch it.name) := by
      rw [filterList] at hlst
      split at hlst
      · cases hlst
      · rename_i hne
        have hcons : lst = listing.filter (fun it => !it.isDeleted && globMatch it.name) :=
          (Option.some.injEq _ _ ▸ hlst).symm
        rw [hcons]
        apply getLastD_mem_of_ne_nil
        intro hn
        exact hne (by rw [hn]; rfl)
    have hprops := List.mem_filter.mp hmem
    have hflags := Bool.and_eq_true_iff.mp hprops.2
    refine ⟨?_, ?_, hprops.1, hflags.2, ?_, ?_⟩
    · simp only [fopenAppend, hlst]
    · simp only [fopenAppend, hlst]
    · have := hflags.1
      simpa using this
    · intro hex
      simp only [fopenAppend, hlst, createIfNotExists, hex, if_true]

/-- Witness for C10: three listed blobs, the third soft-deleted; the writer is
bound to `"a2"`, the last live match, which already exists in the container so
nothing is created. -/
theorem C10_append_glob_last_part_witness :
    (filterList [⟨"a1", 5, false⟩, ⟨"a2", 6, false⟩, ⟨"del", 7, true⟩]
        (fun n => n == "a1" || n == "a2" || n == "del") =
        some [⟨"a1", 5, false⟩, ⟨"a2", 6, false⟩]) ∧
      (fopenAppend [⟨"a1", 5, false⟩, ⟨"a2", 6, false⟩, ⟨"del", 7, true⟩]
          (fun n => n == "a1" || n == "a2" || n == "del") (some 1) ⟨[("a2", [9])]⟩
          "bkt" "a*" []).1 = some ⟨"bkt", "a2"⟩ :=
  ⟨by decide,
    ((C10_append_glob_last_part [⟨"a1", 5, false⟩, ⟨"a2", 6, false⟩, ⟨"del", 7, true⟩]
        (fun n => n == "a1" || n == "a2" || n == "del") 1 ⟨[("a2", [9])]⟩ "bkt" "a*" []).2
      [⟨"a1", 5, false⟩, ⟨"a2", 6, false⟩] (by decide)).1⟩

/-! ## Claim theorems (multifile total size, C3) -/

/-- Elements of a prefix agree with the original list. -/
theorem getD_take_eq (l : Bytes) (m j d : Nat) (hj : j < m) (hl : j < l.length) :
    (l.take m).getD j d = l.getD j d := by
  conv_rhs => rw [← List.take_append_drop m l]
  rw [List.getD_append]
  rw [List.length_take]
  omega

/-- `FindHeader` on a part whose first line is `pre0 ++ [10]`: the scan stops
at that first newline and returns the line, newline included. -/
theorem findHeader_of_first_line (pre0 rest0 : Bytes) (hpre : (10 : Nat) ∉ pre0) :
    findHeader (pre0 ++ 10 :: rest0) = some (pre0 ++ [10]) := by
  rw [findHeader]
  have h1 : pre0.findIdx? (fun b => b == 10) = none := by
    apply List.findIdx?_eq_none_iff.mpr
    intro x hx
    apply beq_eq_false_iff_ne.mpr
    intro hx10
    exact hpre (hx10 ▸ hx)
  have h2 : (10 :: rest0).findIdx? (fun b => b == 10) = some 0 := by
    simp [List.findIdx?_cons]
  rw [List.findIdx?_append, h1, h2]
  simp only [Option.map_some', Option.none_or, Nat.zero_add]
  rw [List.take_append_eq_append_take]
  rw [List.take_of_length_le (by omega)]
  congr 1
  rw [show pre0.length + 1 - pre0.length = 1 by omega]
  rfl

/-- Re-reading the start of a part that begins with the header fills the
comparison buffer with exactly the header. -/
theorem readPartInto_of_take_eq (part buffer header : Bytes)
    (hbuf : buffer.length = header.length)
    (hpart : part.take header.length = header) :
    readPartInto part buffer = header := by
  have hlen : header.length ≤ part.length := by
    have hc := congrArg List.length hpart
    rw [List.length_take] at hc
    omega
  rw [readPartInto]
  have hm : min buffer.length part.length = header.length := by omega
  rw [hm, hpart, ← hbuf, List.drop_length, List.append_nil]

/-- A part that differs from the header at byte `j` makes the buffer
comparison fail, whatever stale bytes the buffer still holds. -/
theorem readPartInto_ne_of_byte_ne (part buffer header : Bytes) (j : Nat)
    (hbuf : buffer.length = header.length)
    (hjh : j < header.length) (hjp : j < part.length)
    (hne : part.getD j 0 ≠ header.getD j 0) :
    (readPartInto part buffer == header) = false := by
  apply beq_eq_false_iff_ne.mpr
  intro heq
  apply hne
  have hg : (readPartInto part buffer).getD j 0 = header.getD j 0 := by rw [heq]
  rw [← hg, readPartInto]
  rw [List.getD_append _ _ _ _ (by rw [List.length_take]; omega)]
  rw [getD_take_eq _ _ _ _ (by omega) hjp]

/-- The header-comparison loop when every remaining part begins with the
header: all comparisons succeed and the raw sizes accumulate. -/
theorem checkTailBlobs_all_match (store : String → Option Bytes) (header : Bytes) :
    ∀ (bs : List BlobItem) (total : Int) (buffer : Bytes),
    buffer.length = header.length →
    (∀ b ∈ bs, ∃ part, store b.name = some part ∧ part.take header.length = header) →
    checkTailBlobs store header bs total true buffer =
      some (total + (bs.map BlobItem.size).sum, true) := by
  intro bs
  induction bs with
  | nil =>
    intro total buffer _ _
    simp [checkTailBlobs]
  | cons b bs ih =>
    intro total buffer hbuf hall
    obtain ⟨part, hst, htake⟩ := hall b (List.mem_cons_self b bs)
    have hbuf' := readPartInto_of_take_eq part buffer header hbuf htake
    rw [checkTailBlobs, if_pos rfl, isSameHeader, hst]
    simp only [hbuf', beq_self_eq_true]
    rw [ih (total + b.size) header rfl (fun x hx => hall x (List.mem_cons_of_mem b hx))]
    have hsum : total + b.size + ((bs.map BlobItem.size).sum) =
        total + (((b :: bs).map BlobItem.size).sum) := by
      simp only [List.map_cons, List.sum_cons]
      omega
    rw [hsum]

/-- Once `same_headers` is false the loop only accumulates sizes: no store
access is issued at all (the short-circuit of the source). -/
theorem checkTailBlobs_false (store : String → Option Bytes) (header : Bytes) :
    ∀ (bs : List BlobItem) (total : Int) (buffer : Bytes),
    checkTailBlobs store header bs total false buffer =
      some (total + (bs.map BlobItem.size).sum, false) := by
  intro bs
  induction bs with
  | nil =>
    intro total buffer
    simp [checkTailBlobs]
  | cons b bs ih =>
    intro total buffer
    rw [checkTailBlobs, if_neg (by simp)]
    rw [ih (total + b.size) buffer]
    have hsum : total + b.size + ((bs.map BlobItem.size).sum) =
        total + (((b :: bs).map BlobItem.size).sum) := by
      simp only [List.map_cons, List.sum_cons]
      omega
    rw [hsum]

/-- The header-comparison loop with a first mismatch at part `bm` (all parts
before it matching): the flag drops to false there and the total is the plain
sum of the raw sizes. -/
theorem checkTailBlobs_mismatch (store : String → Option Bytes) (header : Bytes)
    (j : Nat) (bm : BlobItem) (partm : Bytes) (post : List BlobItem)
    (hstm : store bm.name = some partm)
    (hjh : j < header.length) (hjp : j < partm.length)
    (hne : partm.getD j 0 ≠ header.getD j 0) :
    ∀ (pre : List BlobItem) (total : Int) (buffer : Bytes),
    buffer.length = header.length →
    (∀ b ∈ pre, ∃ part, store b.name = some part ∧ part.take header.length = header) →
    checkTailBlobs store header (pre ++ bm :: post) total true buffer =
      some (total + (((pre ++ bm :: post).map BlobItem.size).sum), false) := by
  intro pre
  induction pre with
  | nil =>
    intro total buffer hbuf _
    simp only [List.nil_append]
    rw [checkTailBlobs, if_pos rfl, isSameHeader, hstm]
    simp only [readPartInto_ne_of_byte_ne partm buffer header j hbuf hjh hjp hne]
    rw [checkTailBlobs_false store header post (total + bm.size) (readPartInto partm buffer)]
    have hsum : total + bm.size + ((post.map BlobItem.size).sum) =
        total + (((bm :: post).map BlobItem.size).sum) := by
      simp only [List.map_cons, List.sum_cons]
      omega
    rw [hsum]
  | cons b pre ih =>
    intro total buffer hbuf hall
    obtain ⟨part, hst, htake⟩ := hall b (List.mem_cons_self b pre)
    have hbuf' := readPartInto_of_take_eq part buffer header hbuf htake
    simp only [List.cons_append]
    rw [checkTailBlobs, if_pos rfl, isSameHeader, hst]
    simp only [hbuf', beq_self_eq_true]
    rw [ih (total + b.size) header rfl (fun x hx => hall x (List.mem_cons_of_mem b hx))]
    have hsum : total + b.size + (((pre ++ bm :: post).map BlobItem.size).sum) =
        total + (((b :: (pre ++ bm :: post)).map BlobItem.size).sum) := by
      simp only [List.map_cons, List.sum_cons]
      omega
    rw [hsum]

/-- C3: for two or more parts all beginning with the identical first line
`pre0 ++ [10]` (length `L = pre0.length + 1`, newline included), the computed
total is the sum of the raw sizes minus `(n - 1) * L`; and when a part differs
from the first part's header at some byte within the first `L` bytes (all
parts checked before it matching), the total is the plain sum of the raw
sizes, the comparison loop short-circuiting after that first mismatch. -/
theorem C3_total_size_header_elision :
    (∀ (store : String → Option Bytes) (b0 b1 : BlobItem) (rest : List BlobItem)
        (pre0 rest0 : Bytes),
      (10 : Nat) ∉ pre0 →
      store b0.name = some (pre0 ++ 10 :: rest0) →
      (∀ b ∈ b1 :: rest, ∃ part, store b.name = some part ∧
        part.take (pre0.length + 1) = pre0 ++ [10]) →
      getFileSizeMulti store (b0 :: b1 :: rest) =
        some ((((b0 :: b1 :: rest).map BlobItem.size).sum) -
          (((b1 :: rest).length * (pre0.length + 1) : Nat) : Int))) ∧
    (∀ (store : String → Option Bytes) (b0 bm : BlobItem)
        (pre post : List BlobItem) (pre0 rest0 partm : Bytes) (j : Nat),
      (10 : Nat) ∉ pre0 →
      store b0.name = some (pre0 ++ 10 :: rest0) →
      (∀ b ∈ pre, ∃ part, store b.name = some part ∧
        part.take (pre0.length + 1) = pre0 ++ [10]) →
      store bm.name = some partm →
      j < pre0.length + 1 → j < partm.length →
      partm.getD j 0 ≠ (pre0 ++ [10]).getD j 0 →
      getFileSizeMulti store (b0 :: (pre ++ bm :: post)) =
        some (((b0 :: (pre ++ bm :: post)).map BlobItem.size).sum)) := by
  have hHlen : ∀ pre0 : Bytes, (pre0 ++ [10]).length = pre0.length + 1 := by
    intro pre0
    simp
  constructor
  · intro store b0 b1 rest pre0 rest0 hpre hst0 hall
    have hh := findHeader_of_first_line pre0 rest0 hpre
    have hall' : ∀ b ∈ b1 :: rest, ∃ part, store b.name = some part ∧
        part.take (pre0 ++ [10]).length = pre0 ++ [10] := by
      intro b hb
      obtain ⟨part, h1, h2⟩ := hall b hb
      exact ⟨part, h1, by rw [hHlen]; exact h2⟩
    have hchk := checkTailBlobs_all_match store (pre0 ++ [10]) (b1 :: rest) b0.size
        (List.replicate (pre0 ++ [10]).length 0) (by simp) hall'
    simp only [getFileSizeMulti, hst0, hh, hchk]
    simp only [if_true]
    simp only [List.length_cons, List.map_cons, List.sum_cons, hHlen]
    have harith : rest.length + 1 + 1 - 1 = rest.length + 1 := by omega
    rw [harith]
  · intro store b0 bm pre post pre0 rest0 partm j hpre hst0 hall hstm hjh hjp hne
    have hh := findHeader_of_first_line pre0 rest0 hpre
    have hjh' : j < (pre0 ++ [10]).length := by rw [hHlen]; exact hjh
    have hall' : ∀ b ∈ pre, ∃ part, store b.name = some part ∧
        part.take (pre0 ++ [10]).length = pre0 ++ [10] := by
      intro b hb
      obtain ⟨part, h1, h2⟩ := hall b hb
      exact ⟨part, h1, by rw [hHlen]; exact h2⟩
    have hchk := checkTailBlobs_mismatch store (pre0 ++ [10]) j bm partm post hstm hjh' hjp
        hne pre b0.size (List.replicate (pre0 ++ [10]).length 0) (by simp) hall'
    cases pre with
    | nil =>
      simp only [List.nil_append] at hchk ⊢
      simp only [getFileSizeMulti, hst0, hh, hchk, Bool.false_eq_true, if_false,
        List.map_cons, List.sum_cons]
    | cons q pre' =>
      simp only [List.cons_append] at hchk ⊢
      simp only [getFileSizeMulti, hst0, hh, hchk, Bool.false_eq_true, if_false,
        List.map_cons, List.sum_cons]

/-- Witness for C3: two parts `[72,10,1,2]` and `[72,10,3]` sharing the
2-byte first line `[72,10]`; total = (4 + 3) − (2 − 1)·2 = 5. -/
theorem C3_total_size_header_elision_witness :
    ((10 : Nat) ∉ ([72] : Bytes)) ∧
      getFileSizeMulti
        (fun n => if n = "p0" then some [72, 10, 1, 2] else
          if n = "p1" then some [72, 10, 3] else none)
        [⟨"p0", 4, false⟩, ⟨"p1", 3, false⟩] = some 5 :=
  ⟨by decide, by
    have h := (C3_total_size_header_elision).1
        (fun n => if n = "p0" then some [72, 10, 1, 2] else
          if n = "p1" then some [72, 10, 3] else none)
        ⟨"p0", 4, false⟩ ⟨"p1", 3, false⟩ [] [72] [1, 2] (by decide) (by decide)
        (by
          intro b hb
          rcases List.mem_cons.mp hb with rfl | hb'
          · exact ⟨[72, 10, 3], rfl, by decide⟩
          · cases hb')
    simpa using h⟩

/-! ## Claim theorems (spanning reads, C2, and read clamping, C4):
index arithmetic over the spec-side logical stream -/

/-- `sumLogical` unfolds on a cons cell. -/
theorem sumLogical_cons (hlen : Nat) (q : Bytes) (qs : List Bytes) :
    sumLogical hlen (q :: qs) = (q.length - hlen) + sumLogical hlen qs := by
  simp [sumLogical]

/-- `sumLogical` splits at any take/drop point. -/
theorem sumLogical_take_drop (hlen : Nat) (l : List Bytes) (k : Nat) :
    sumLogical hlen l = sumLogical hlen (l.take k) + sumLogical hlen (l.drop k) := by
  conv_lhs => rw [← List.take_append_drop k l]
  simp [sumLogical, List.map_append, List.sum_append]

/-- Element `j` of the running cumulative sizes. -/
theorem cumulAux_getD (hlen : Nat) :
    ∀ (qs : List Bytes) (acc j : Nat), j < qs.length →
    (cumulAux hlen acc qs).getD j 0 = acc + sumLogical hlen (qs.take (j + 1)) := by
  intro qs
  induction qs with
  | nil =>
    intro acc j hj
    simp at hj
  | cons q qs ih =>
    intro acc j hj
    cases j with
    | zero =>
      simp [cumulAux, sumLogical]
    | succ j =>
      rw [cumulAux, List.getD_cons_succ]
      rw [ih (acc + (q.length - hlen)) j (by simpa using hj)]
      rw [List.take_succ_cons, sumLogical_cons]
      omega

/-- The running cumulative list has one entry per part. -/
theorem cumulAux_length (hlen : Nat) :
    ∀ (qs : List Bytes) (acc : Nat), (cumulAux hlen acc qs).length = qs.length := by
  intro qs
  induction qs with
  | nil => intro acc; rfl
  | cons q qs ih => intro acc; simp [cumulAux, ih]

/-- The cumulative list has one entry per part. -/
theorem cumulOf_length (hlen : Nat) (parts : List Bytes) :
    (cumulOf hlen parts).length = parts.length := by
  cases parts with
  | nil => rfl
  | cons p ps => simp [cumulOf, cumulAux_length]

/-- Head of the cumulative list: part 0 counts raw. -/
theorem cumulOf_getD_zero (hlen : Nat) (p : Bytes) (ps : List Bytes) :
    (cumulOf hlen (p :: ps)).getD 0 0 = p.length := by
  simp [cumulOf]

/-- Later entries of the cumulative list. -/
theorem cumulOf_getD_succ (hlen : Nat) (p : Bytes) (ps : List Bytes) (j : Nat)
    (hj : j < ps.length) :
    (cumulOf hlen (p :: ps)).getD (j + 1) 0 =
      p.length + sumLogical hlen (ps.take (j + 1)) := by
  rw [cumulOf, List.getD_cons_succ, cumulAux_getD hlen ps p.length j hj]

/-- The default-carrying last element of a non-empty list sits at index
`length - 1`. -/
theorem getLastD_eq_getD_pred {α : Type} (l : List α) (d : α) (h : l ≠ []) :
    l.getLastD d = l.getD (l.length - 1) d := by
  have hlen : 0 < l.length := List.length_pos.mpr h
  rw [List.getD_eq_getElem l d (by omega)]
  rw [List.getLastD_eq_getLast?, List.getLast?_eq_getElem?,
    List.getElem?_eq_getElem (by omega)]
  rfl

/-- The total logical size of a non-empty part list. -/
theorem totalLogical_cons (hlen : Nat) (p : Bytes) (ps : List Bytes) :
    totalLogical hlen (p :: ps) = p.length + sumLogical hlen ps := by
  rw [totalLogical]
  cases hps : ps with
  | nil => simp [cumulOf, cumulAux, sumLogical]
  | cons q qs =>
    rw [getLastD_eq_getD_pred _ _ (by simp [cumulOf])]
    rw [cumulOf_length]
    have hlen2 : (p :: q :: qs).length - 1 = qs.length + 1 := by simp
    rw [hlen2]
    rw [cumulOf_getD_succ hlen p (q :: qs) qs.length (by simp)]
    rw [List.take_of_length_le (by simp)]

/-- The total splits at any index of the cumulative list. -/
theorem totalLogical_split (hlen : Nat) (p : Bytes) (ps : List Bytes) (k : Nat)
    (hk : k < (p :: ps).length) :
    totalLogical hlen (p :: ps) =
      (cumulOf hlen (p :: ps)).getD k 0 + sumLogical hlen ((p :: ps).drop (k + 1)) := by
  cases k with
  | zero =>
    rw [totalLogical_cons, cumulOf_getD_zero]
    rfl
  | succ k =>
    have hk' : k < ps.length := by simpa using hk
    rw [totalLogical_cons, cumulOf_getD_succ hlen p ps k hk']
    have := sumLogical_take_drop hlen ps (k + 1)
    have hdrop : (p :: ps).drop (k + 1 + 1) = ps.drop (k + 1) := rfl
    rw [hdrop]
    omega

/-- Dropping a whole number of elided parts from the elided tail. -/
theorem flatten_dropH_drop (hlen : Nat) :
    ∀ (ps : List Bytes) (k : Nat), k ≤ ps.length →
    ((ps.map (List.drop hlen)).flatten).drop (sumLogical hlen (ps.take k)) =
      ((ps.drop k).map (List.drop hlen)).flatten := by
  intro ps
  induction ps with
  | nil =>
    intro k hk
    simp [sumLogical]
  | cons q ps ih =>
    intro k hk
    cases k with
    | zero => simp [sumLogical]
    | succ k =>
      simp only [List.take_succ_cons, sumLogical_cons, List.map_cons, List.flatten_cons,
        List.drop_succ_cons]
      rw [show q.length - hlen = (q.drop hlen).length by rw [List.length_drop]]
      rw [List.drop_append]
      exact ih k (by simpa using hk)

/-- Dropping the logical prefix up to cumulative entry `k - 1` lands exactly
at the elided remainder of parts `k, k+1, ...`. -/
theorem elide_drop_cumul (hlen : Nat) (p : Bytes) (ps : List Bytes) (k : Nat)
    (hk : k ≤ ps.length) :
    (elide hlen (p :: ps)).drop (p.length + sumLogical hlen (ps.take k)) =
      ((ps.drop k).map (List.drop hlen)).flatten := by
  rw [elide]
  rw [show p.length + sumLogical hlen (ps.take k) =
    p.length + sumLogical hlen (ps.take k) by rfl]
  rw [List.drop_append]
  exact flatten_dropH_drop hlen ps k hk

/-- Unfolding `readLoop` when nothing is left to read. -/
theorem readLoop_toRead_zero (dl : Download) (cumul : List Int) (files : List String)
    (hlen bak : Int) (fuel idx : Nat) (offset : Int) (buffer : Bytes) :
    readLoop dl cumul files hlen bak fuel idx 0 offset buffer = ⟨.ok, offset, buffer⟩ := by
  cases fuel <;> rfl

/-- One unfolding step of `readLoop` with fuel available. -/
theorem readLoop_succ_eq (dl : Download) (cumul : List Int) (files : List String)
    (hlen bak : Int) (fuel idx : Nat) (toRead offset : Int) (buffer : Bytes) :
    readLoop dl cumul files hlen bak (fuel + 1) idx toRead offset buffer =
      if toRead = 0 then ⟨.ok, offset, buffer⟩
      else
        match dl (files.getD (idx + 1) "") hlen
            (min toRead (cumul.getD (idx + 1) 0 - cumul.getD idx 0)) with
        | none => ⟨.transportError, bak, buffer⟩
        | some bytes =>
          readLoop dl cumul files hlen bak fuel (idx + 1)
            (toRead - min toRead (cumul.getD (idx + 1) 0 - cumul.getD idx 0))
            (offset + min toRead (cumul.getD (idx + 1) 0 - cumul.getD idx 0))
            (buffer ++ bytes) := rfl

/-- The continuation loop of `ReadBytesInFile`, started at a part boundary
`c = cumul[idx]` with `t` bytes still requested, reads each subsequent part
from physical offset `hlen` and returns exactly the elided bytes of the
remaining parts. -/
theorem readLoop_spec (store : String → Option Bytes) (cumulI : List Int)
    (files : List String) (hlen : Nat) (bak : Int) :
    ∀ (qs : List Bytes) (fuel idx c t : Nat) (o : Int) (buffer : Bytes),
    qs.length ≤ fuel →
    (∀ j, j < qs.length → store (files.getD (idx + 1 + j) "") = some (qs.getD j [])) →
    (∀ j, j < qs.length → hlen ≤ (qs.getD j []).length) →
    (∀ j, j < qs.length →
      cumulI.getD (idx + 1 + j) 0 = ((c + sumLogical hlen (qs.take (j + 1)) : Nat) : Int)) →
    cumulI.getD idx 0 = (c : Int) →
    t ≤ sumLogical hlen qs →
    readLoop (storeDownload store) cumulI files (hlen : Int) bak fuel idx (t : Int) o buffer =
      ⟨.ok, o + (t : Int), buffer ++ ((qs.map (List.drop hlen)).flatten.take t)⟩ := by
  intro qs
  induction qs with
  | nil =>
    intro fuel idx c t o buffer _ _ _ _ _ hbound
    have ht0 : t = 0 := by
      have h0 : sumLogical hlen [] = 0 := by simp [sumLogical]
      omega
    subst ht0
    simp only [Nat.cast_zero, readLoop_toRead_zero]
    simp
  | cons q qs ih =>
    intro fuel idx c t o buffer hfuel hstore hH hcumul hcurr hbound
    by_cases ht0 : t = 0
    · subst ht0
      simp only [Nat.cast_zero, readLoop_toRead_zero]
      simp
    · cases fuel with
      | zero => simp at hfuel
      | succ fuel =>
        rw [readLoop_succ_eq]
        rw [if_neg (by exact_mod_cast ht0)]
        have hq0 : store (files.getD (idx + 1) "") = some q := by
          have := hstore 0 (by simp)
          simpa using this
        have hH0 : hlen ≤ q.length := by
          have := hH 0 (by simp)
          simpa using this
        have hc1 : cumulI.getD (idx + 1) 0 = ((c + (q.length - hlen) : Nat) : Int) := by
          have := hcumul 0 (by simp)
          simpa [sumLogical] using this
        have hdiff : cumulI.getD (idx + 1) 0 - cumulI.getD idx 0 =
            ((q.length - hlen : Nat) : Int) := by
          rw [hc1, hcurr]
          push_cast
          omega
        rw [hdiff]
        have hmin : min (t : Int) ((q.length - hlen : Nat) : Int) =
            ((min t (q.length - hlen) : Nat) : Int) := (Nat.cast_min _ _).symm
        rw [hmin]
        have hdl : storeDownload store (files.getD (idx + 1) "") (hlen : Int)
            ((min t (q.length - hlen) : Nat) : Int) =
            some ((q.drop hlen).take (min t (q.length - hlen))) := by
          simp only [storeDownload, hq0]
          rw [if_pos (by
            refine ⟨by positivity, by positivity, ?_⟩
            rw [Int.toNat_natCast, Int.toNat_natCast]
            omega)]
          rw [Int.toNat_natCast, Int.toNat_natCast]
        simp only [hdl]
        have hsub : (t : Int) - ((min t (q.length - hlen) : Nat) : Int) =
            ((t - min t (q.length - hlen) : Nat) : Int) := by
          push_cast
          omega
        rw [hsub]
        have hrec := ih fuel (idx + 1) (c + (q.length - hlen))
            (t - min t (q.length - hlen))
            (o + ((min t (q.length - hlen) : Nat) : Int))
            (buffer ++ (q.drop hlen).take (min t (q.length - hlen)))
            (by simpa using hfuel)
            (by
              intro j hj
              have hs := hstore (j + 1) (by simpa using Nat.succ_lt_succ hj)
              have e : idx + 1 + (j + 1) = idx + 1 + 1 + j := by omega
              rw [e] at hs
              simpa using hs)
            (by
              intro j hj
              have hs := hH (j + 1) (by simpa using Nat.succ_lt_succ hj)
              simpa using hs)
            (by
              intro j hj
              have hs := hcumul (j + 1) (by simpa using Nat.succ_lt_succ hj)
              have e : idx + 1 + (j + 1) = idx + 1 + 1 + j := by omega
              rw [e] at hs
              rw [hs]
              congr 1
              rw [List.take_succ_cons, sumLogical_cons]
              omega)
            (by rw [hc1])
            (by
              rw [sumLogical_cons] at hbound
              omega)
        rw [hrec]
        congr 1
        · push_cast
          omega
        · rw [List.append_assoc]
          congr 1
          rw [List.map_cons, List.flatten_cons]
          rw [List.take_append_eq_append_take]
          congr 1
          · rw [List.take_eq_take.mpr]
            rw [List.length_drop]
            omega
          · congr 1
            rw [List.length_drop]
            omega

/-- Elements inside a `takeWhile` prefix satisfy the predicate. -/
theorem takeWhile_pred_true {α : Type} (p : α → Bool) (d : α) :
    ∀ (l : List α) (j : Nat), j < (l.takeWhile p).length → p (l.getD j d) = true := by
  intro l
  induction l with
  | nil => intro j hj; simp at hj
  | cons a t ih =>
    intro j hj
    rw [List.takeWhile_cons] at hj
    by_cases hpa : p a
    · simp only [hpa, if_true, List.length_cons] at hj
      cases j with
      | zero => simpa using hpa
      | succ j =>
        rw [List.getD_cons_succ]
        exact ih j (by omega)
    · simp [hpa] at hj

/-- The element right after a proper `takeWhile` prefix falsifies the
predicate. -/
theorem takeWhile_stop_false {α : Type} (p : α → Bool) (d : α) :
    ∀ (l : List α), (l.takeWhile p).length < l.length →
    p (l.getD (l.takeWhile p).length d) = false := by
  intro l
  induction l with
  | nil => intro h; simp at h
  | cons a t ih =>
    intro h
    rw [List.takeWhile_cons] at h ⊢
    by_cases hpa : p a
    · simp only [hpa, if_true, List.length_cons] at h ⊢
      rw [List.getD_cons_succ]
      exact ih (by omega)
    · have hpa' : p a = false := by simpa using hpa
      simp only [hpa', Bool.false_eq_true, if_false, List.length_nil, List.getD_cons_zero]

/-- `takeWhile` never grows the list. -/
theorem takeWhile_length_le {α : Type} (p : α → Bool) (l : List α) :
    (l.takeWhile p).length ≤ l.length := by
  induction l with
  | nil => simp
  | cons a t ih =>
    rw [List.takeWhile_cons]
    by_cases hpa : p a
    · simp only [hpa, if_true, List.length_cons]
      omega
    · simp [hpa]

/-- A falsified last element keeps the `takeWhile` prefix proper. -/
theorem takeWhile_length_lt_of_last {α : Type} (p : α → Bool) (d : α) (l : List α)
    (hne : l ≠ []) (hlast : p (l.getD (l.length - 1) d) = false) :
    (l.takeWhile p).length < l.length := by
  rcases Nat.lt_or_ge (l.takeWhile p).length l.length with h | h
  · exact h
  · exfalso
    have heq : (l.takeWhile p).length = l.length :=
      Nat.le_antisymm (takeWhile_length_le p l) h
    have hpos : 0 < l.length := List.length_pos.mpr hne
    have := takeWhile_pred_true p d l (l.length - 1) (by omega)
    rw [this] at hlast
    cases hlast

/-- Casting the cumulative sizes to `Int` and then indexing. -/
theorem getD_castList (l : List Nat) (i : Nat) :
    (castList l).getD i 0 = ((l.getD i 0 : Nat) : Int) := by
  rw [castList]
  rcases Nat.lt_or_ge i l.length with hi | hi
  · rw [List.getD_eq_getElem _ _ (by simpa using hi), List.getD_eq_getElem _ _ hi]
    simp
  · rw [List.getD_eq_default _ _ (by simpa using hi), List.getD_eq_default _ _ hi]
    simp

/-- `upperBoundIdx` over the cast cumulative list is the length of the
`Nat`-level `takeWhile` prefix. -/
theorem upperBoundIdx_cast (l : List Nat) (x : Nat) :
    upperBoundIdx (castList l) (x : Int) =
      (l.takeWhile (fun c => decide (c ≤ x))).length := by
  rw [upperBoundIdx, castList, List.takeWhile_map, List.length_map]
  have hp : ((fun c => decide (c ≤ (x : Int))) ∘ Int.ofNat) =
      (fun c : Nat => decide (c ≤ x)) := by
    funext c
    simp [Int.ofNat_eq_coe]
  rw [hp]

/-- Uniform closed form for the entries of `cumulOf`. -/
theorem cumulOf_getD_eq (hlen : Nat) (p0 : Bytes) (ps : List Bytes) (k : Nat)
    (hk : k < ps.length + 1) :
    (cumulOf hlen (p0 :: ps)).getD k 0 = p0.length + sumLogical hlen (ps.take k) := by
  cases k with
  | zero =>
    rw [cumulOf_getD_zero]
    simp [sumLogical]
  | succ j =>
    exact cumulOf_getD_succ hlen p0 ps j (by omega)

/-- One more part in a `take` adds its logical size. -/
theorem sumLogical_take_succ (hlen : Nat) (l : List Bytes) (j : Nat) (hj : j < l.length) :
    sumLogical hlen (l.take (j + 1)) =
      sumLogical hlen (l.take j) + ((l.getD j []).length - hlen) := by
  have h : l.take (j + 1) = l.take j ++ [l.getD j []] := by
    rw [List.take_succ]
    simp [List.getElem?_eq_getElem hj]
  rw [h]
  simp [sumLogical, List.map_append, List.sum_append]

/-- `take` after `drop` in a logical-size sum. -/
theorem sumLogical_take_add (hlen : Nat) (l : List Bytes) (a b : Nat) :
    sumLogical hlen (l.take (a + b)) =
      sumLogical hlen (l.take a) + sumLogical hlen ((l.drop a).take b) := by
  rw [List.take_add]
  simp [sumLogical, List.map_append, List.sum_append]

/-- Indexing into a dropped byte-list suffix. -/
theorem getD_drop_eq (l : List Bytes) (a j : Nat) (h : a + j < l.length) :
    (l.drop a).getD j [] = l.getD (a + j) [] := by
  rw [List.getD_eq_getElem _ _ (by rw [List.length_drop]; omega),
    List.getD_eq_getElem _ _ h]
  simp


/-- `ReadBytesInFile` on a well-formed shared-header index returns exactly the
requested slice of the elided logical stream and advances the cursor by the
requested length: the physical start offset is the logical offset inside part
0, `offset − cumul[idx−1] + header-length` inside a later part, and every
subsequent part is read from physical offset `header-length`. -/
theorem readBytesInFile_spec (store : String → Option Bytes) (p0 : Bytes) (ps : List Bytes)
    (names : List String) (hlen : Nat) (bucket pat : String) (offN t : Nat)
    (hnames : names.length = ps.length + 1)
    (hstore : ∀ i, i < ps.length + 1 →
      store (names.getD i "") = some ((p0 :: ps).getD i []))
    (hH : ∀ i, 1 ≤ i → i < ps.length + 1 → hlen ≤ ((p0 :: ps).getD i []).length)
    (ht : 0 < t)
    (hbound : offN + t ≤ totalLogical hlen (p0 :: ps)) :
    readBytesInFile (storeDownload store)
      ⟨bucket, pat, (offN : Int), (hlen : Int), names, castList (cumulOf hlen (p0 :: ps))⟩
      (t : Int) =
      ⟨.ok, ((offN + t : Nat) : Int), ((elide hlen (p0 :: ps)).drop offN).take t⟩ := by
  have htot := totalLogical_cons hlen p0 ps
  have hclen : (cumulOf hlen (p0 :: ps)).length = ps.length + 1 := by
    rw [cumulOf_length]
    rfl
  have hcne : cumulOf hlen (p0 :: ps) ≠ [] := by
    intro hnil
    rw [hnil] at hclen
    simp at hclen
  have hlastfalse : (fun c => decide (c ≤ offN))
      ((cumulOf hlen (p0 :: ps)).getD ((cumulOf hlen (p0 :: ps)).length - 1) 0) = false := by
    have h1 : (cumulOf hlen (p0 :: ps)).getD ((cumulOf hlen (p0 :: ps)).length - 1) 0 =
        totalLogical hlen (p0 :: ps) := by
      rw [totalLogical, getLastD_eq_getD_pred _ _ hcne]
    rw [h1]
    simp only [decide_eq_false_iff_not, not_le]
    omega
  obtain ⟨k, hub, hklt, hkgtN, hkleN⟩ :
      ∃ k, upperBoundIdx (castList (cumulOf hlen (p0 :: ps))) ((offN : Nat) : Int) = k ∧
        k < (cumulOf hlen (p0 :: ps)).length ∧
        offN < (cumulOf hlen (p0 :: ps)).getD k 0 ∧
        (∀ j, j < k → (cumulOf hlen (p0 :: ps)).getD j 0 ≤ offN) := by
    have hklt' := takeWhile_length_lt_of_last (fun c => decide (c ≤ offN)) 0 _ hcne hlastfalse
    refine ⟨_, upperBoundIdx_cast _ offN, hklt', ?_, ?_⟩
    · have hs := takeWhile_stop_false (fun c => decide (c ≤ offN)) 0
        (cumulOf hlen (p0 :: ps)) hklt'
      simpa using hs
    · intro j hj
      have hs := takeWhile_pred_true (fun c => decide (c ≤ offN)) 0
        (cumulOf hlen (p0 :: ps)) j hj
      simpa using hs
  have hkps : k ≤ ps.length := by omega
  have hgetk : (cumulOf hlen (p0 :: ps)).getD k 0 =
      p0.length + sumLogical hlen (ps.take k) :=
    cumulOf_getD_eq hlen p0 ps k (by omega)
  obtain ⟨rl, hrl1, hrl2, hrl3, hrlmin⟩ :
      ∃ rl, rl ≤ t ∧ rl ≤ (cumulOf hlen (p0 :: ps)).getD k 0 - offN ∧
        (rl = t ∨ rl = (cumulOf hlen (p0 :: ps)).getD k 0 - offN) ∧
        min t ((cumulOf hlen (p0 :: ps)).getD k 0 - offN) = rl := by
    refine ⟨min t ((cumulOf hlen (p0 :: ps)).getD k 0 - offN),
      Nat.min_le_left _ _, Nat.min_le_right _ _, ?_, rfl⟩
    rcases Nat.le_total t ((cumulOf hlen (p0 :: ps)).getD k 0 - offN) with h | h
    · exact Or.inl (Nat.min_eq_left h)
    · exact Or.inr (Nat.min_eq_right h)
  have hsubk : (((cumulOf hlen (p0 :: ps)).getD k 0 : Nat) : Int) - ((offN : Nat) : Int) =
      (((cumulOf hlen (p0 :: ps)).getD k 0 - offN : Nat) : Int) := by
    omega
  have hloop : ∀ buffer : Bytes,
      readLoop (storeDownload store) (castList (cumulOf hlen (p0 :: ps))) names
        (hlen : Int) (offN : Int) names.length k ((t - rl : Nat) : Int)
        ((offN : Int) + ((rl : Nat) : Int)) buffer =
        ⟨.ok, ((offN : Int) + ((rl : Nat) : Int)) + ((t - rl : Nat) : Int),
          buffer ++ (((ps.drop k).map (List.drop hlen)).flatten.take (t - rl))⟩ := by
    intro buffer
    apply readLoop_spec store (castList (cumulOf hlen (p0 :: ps))) names hlen (offN : Int)
      (ps.drop k) names.length k ((cumulOf hlen (p0 :: ps)).getD k 0) (t - rl) _ buffer
    · rw [List.length_drop]
      omega
    · intro j hj
      rw [List.length_drop] at hj
      have hs := hstore (k + 1 + j) (by omega)
      have e1 : (p0 :: ps).getD (k + 1 + j) [] = ps.getD (k + j) [] := by
        have e : k + 1 + j = (k + j) + 1 := by omega
        rw [e, List.getD_cons_succ]
      rw [e1] at hs
      rw [hs, getD_drop_eq ps k j (by omega)]
    · intro j hj
      rw [List.length_drop] at hj
      have hs := hH (k + 1 + j) (by omega) (by omega)
      have e1 : (p0 :: ps).getD (k + 1 + j) [] = ps.getD (k + j) [] := by
        have e : k + 1 + j = (k + j) + 1 := by omega
        rw [e, List.getD_cons_succ]
      rw [e1] at hs
      rw [getD_drop_eq ps k j (by omega)]
      exact hs
    · intro j hj
      rw [List.length_drop] at hj
      rw [getD_castList]
      rw [cumulOf_getD_eq hlen p0 ps (k + 1 + j) (by omega)]
      have e : k + 1 + j = k + (j + 1) := by omega
      rw [e, sumLogical_take_add hlen ps k (j + 1)]
      rw [hgetk]
      congr 1
      omega
    · rw [getD_castList, hgetk]
    · have hsplit := totalLogical_split hlen p0 ps k (by simp only [List.length_cons]; omega)
      have hdropk : (p0 :: ps).drop (k + 1) = ps.drop k := rfl
      rw [hdropk] at hsplit
      omega
  simp only [readBytesInFile, hub]
  simp only [getD_castList, hsubk, ← Nat.cast_min, hrlmin]
  have hsubt : (t : Int) - ((rl : Nat) : Int) = ((t - rl : Nat) : Int) := by
    omega
  by_cases hk0 : k = 0
  · -- the cursor sits in part 0: physical offset = logical offset
    subst hk0
    rw [if_pos rfl]
    have hget0 : (cumulOf hlen (p0 :: ps)).getD 0 0 = p0.length := cumulOf_getD_zero hlen p0 ps
    have hoff0 : offN < p0.length := by
      rw [hget0] at hkgtN
      exact hkgtN
    have hst0 : store (names.getD 0 "") = some p0 := by
      have hs := hstore 0 (by omega)
      simpa using hs
    have hdl0 : storeDownload store (names.getD 0 "") ((offN : Nat) : Int)
        ((rl : Nat) : Int) = some ((p0.drop offN).take rl) := by
      simp only [storeDownload, hst0]
      rw [if_pos (by
        refine ⟨by positivity, by positivity, ?_⟩
        rw [Int.toNat_natCast, Int.toNat_natCast]
        rw [hget0] at hrl2
        omega)]
      rw [Int.toNat_natCast, Int.toNat_natCast]
    simp only [hdl0]
    rw [hsubt, hloop]
    rw [hget0] at hrl2 hrl3
    congr 1
    · push_cast
      omega
    · have helide : (elide hlen (p0 :: ps)).drop offN =
          p0.drop offN ++ (ps.map (List.drop hlen)).flatten := by
        rw [elide, List.drop_append_eq_append_drop]
        have hz : offN - p0.length = 0 := by omega
        rw [hz, List.drop_zero]
      rw [helide, List.take_append_eq_append_take, List.drop_zero]
      congr 1
      · rw [List.take_eq_take.mpr]
        rw [List.length_drop]
        omega
      · congr 1
        rw [List.length_drop]
        omega
  · -- the cursor sits in a later part: physical offset skips the elided header
    obtain ⟨kp, rfl⟩ : ∃ kp, k = kp + 1 := ⟨k - 1, by omega⟩
    rw [if_neg (by omega)]
    have hple : (cumulOf hlen (p0 :: ps)).getD kp 0 ≤ offN := hkleN kp (by omega)
    have hcpred : (cumulOf hlen (p0 :: ps)).getD kp 0 =
        p0.length + sumLogical hlen (ps.take kp) :=
      cumulOf_getD_eq hlen p0 ps kp (by omega)
    have hqk : (p0 :: ps).getD (kp + 1) [] = ps.getD kp [] := List.getD_cons_succ
    have hHk : hlen ≤ (ps.getD kp []).length := by
      have hs := hH (kp + 1) (by omega) (by omega)
      rw [hqk] at hs
      exact hs
    have hstep : (cumulOf hlen (p0 :: ps)).getD (kp + 1) 0 =
        (cumulOf hlen (p0 :: ps)).getD kp 0 + ((ps.getD kp []).length - hlen) := by
      rw [hgetk, hcpred, sumLogical_take_succ hlen ps kp (by omega)]
      omega
    have hfs : (offN : Int) - (((cumulOf hlen (p0 :: ps)).getD (kp + 1 - 1) 0 : Nat) : Int) +
        ((hlen : Nat) : Int) =
        ((hlen + (offN - (cumulOf hlen (p0 :: ps)).getD kp 0) : Nat) : Int) := by
      rw [show kp + 1 - 1 = kp by omega]
      push_cast
      omega
    rw [hfs]
    have hstk : store (names.getD (kp + 1) "") = some (ps.getD kp []) := by
      have hs := hstore (kp + 1) (by omega)
      rw [hqk] at hs
      exact hs
    have hdlk : storeDownload store (names.getD (kp + 1) "")
        ((hlen + (offN - (cumulOf hlen (p0 :: ps)).getD kp 0) : Nat) : Int)
        ((rl : Nat) : Int) =
        some (((ps.getD kp []).drop
          (hlen + (offN - (cumulOf hlen (p0 :: ps)).getD kp 0))).take rl) := by
      simp only [storeDownload, hstk]
      rw [if_pos (by
        refine ⟨by positivity, by positivity, ?_⟩
        rw [Int.toNat_natCast, Int.toNat_natCast]
        omega)]
      rw [Int.toNat_natCast, Int.toNat_natCast]
    simp only [hdlk]
    rw [hsubt, hloop]
    congr 1
    · push_cast
      omega
    · have hdk : ps.drop kp = ps.getD kp [] :: ps.drop (kp + 1) := by
        rw [List.getD_eq_getElem _ _ (by omega : kp < ps.length)]
        exact (List.getElem_cons_drop ps kp (by omega)).symm
      have hsplit : (elide hlen (p0 :: ps)).drop offN =
          ((ps.getD kp []).drop (hlen + (offN - (cumulOf hlen (p0 :: ps)).getD kp 0))) ++
            ((ps.drop (kp + 1)).map (List.drop hlen)).flatten := by
        have h1 := elide_drop_cumul hlen p0 ps kp (by omega)
        have h2 : (elide hlen (p0 :: ps)).drop offN =
            ((elide hlen (p0 :: ps)).drop (p0.length + sumLogical hlen (ps.take kp))).drop
              (offN - (cumulOf hlen (p0 :: ps)).getD kp 0) := by
          rw [List.drop_drop]
          congr 1
          omega
        rw [h2, h1, hdk]
        rw [List.map_cons, List.flatten_cons]
        rw [List.drop_append_eq_append_drop]
        have hz : offN - (cumulOf hlen (p0 :: ps)).getD kp 0 -
            ((ps.getD kp []).drop hlen).length = 0 := by
          rw [List.length_drop]
          omega
        rw [hz, List.drop_zero]
        congr 1
        rw [List.drop_drop]
      rw [hsplit, List.take_append_eq_append_take]
      congr 1
      · apply List.take_eq_take.mpr
        rw [List.length_drop]
        omega
      · congr 1
        rw [List.length_drop]
        omega

/-- C2: on an index with a shared header, every in-range read — in particular
every read spanning a part boundary — returns exactly the elided concatenation
of the parts' raw bytes: physical start = logical offset inside part 0,
`offset − cumul[i−1] + header-length` inside part i>0, each subsequent part
read from physical offset `header-length`. -/
theorem C2_spanning_read_elided (store : String → Option Bytes) (p0 : Bytes)
    (ps : List Bytes) (names : List String) (hlen : Nat) (bucket pat : String)
    (offN t : Nat)
    (hnames : names.length = ps.length + 1)
    (hstore : ∀ i, i < ps.length + 1 →
      store (names.getD i "") = some ((p0 :: ps).getD i []))
    (hH : ∀ i, 1 ≤ i → i < ps.length + 1 → hlen ≤ ((p0 :: ps).getD i []).length)
    (ht : 0 < t)
    (hbound : offN + t ≤ totalLogical hlen (p0 :: ps)) :
    readBytesInFile (storeDownload store)
      ⟨bucket, pat, (offN : Int), (hlen : Int), names, castList (cumulOf hlen (p0 :: ps))⟩
      (t : Int) =
      ⟨.ok, ((offN + t : Nat) : Int), ((elide hlen (p0 :: ps)).drop offN).take t⟩ :=
  readBytesInFile_spec store p0 ps names hlen bucket pat offN t hnames hstore hH ht hbound

/-- Witness for C2, the claim's own example: two parts of raw size 100 with a
10-byte shared header (logical size 190); reading 20 bytes at logical offset
95 returns the last 5 bytes of part 0 followed by 15 bytes of part 1 starting
at physical offset 10. -/
theorem C2_spanning_read_elided_witness :
    (95 + 20 ≤ totalLogical 10
        [List.range 100, List.range 10 ++ (List.range 90).map (fun i => 100 + i)]) ∧
      readBytesInFile
        (storeDownload (fun n =>
          if n = "p0" then some (List.range 100) else
          if n = "p1" then some (List.range 10 ++ (List.range 90).map (fun i => 100 + i))
          else none))
        ⟨"bkt", "p*", 95, 10, ["p0", "p1"],
          castList (cumulOf 10
            [List.range 100, List.range 10 ++ (List.range 90).map (fun i => 100 + i)])⟩
        20 =
        ⟨.ok, 115,
          ((elide 10 [List.range 100,
            List.range 10 ++ (List.range 90).map (fun i => 100 + i)]).drop 95).take 20⟩ :=
  ⟨by decide,
    C2_spanning_read_elided
      (fun n =>
        if n = "p0" then some (List.range 100) else
        if n = "p1" then some (List.range 10 ++ (List.range 90).map (fun i => 100 + i))
        else none)
      (List.range 100) [List.range 10 ++ (List.range 90).map (fun i => 100 + i)]
      ["p0", "p1"] 10 "bkt" "p*" 95 20 (by decide)
      (by decide) (by decide) (by decide) (by decide)⟩

/-- The total logical size stored in the reader, through the cast. -/
theorem castList_getLastD (l : List Nat) :
    (castList l).getLastD 0 = ((l.getLastD 0 : Nat) : Int) := by
  rw [castList]
  have h := List.getLastD_map Int.ofNat l 0
  simpa using h

/-- C4 counterexample: a reader with cursor 0 over a 10-byte logical stream
(so offset < total), asked for `size = 1, count = 2^63`: the claim says the
request is clamped to 10 bytes and never errors, but the
`WillSizeCountProductOverflow` guard rejects it with the error sentinel. -/
theorem C4_counterexample_overflowing_request :
    driver_fread (fun _ _ _ => none) ⟨"b", "o", 0, 0, ["a"], [10]⟩
      1 9223372036854775808 =
      (kBadSize, ⟨"b", "o", 0, 0, ["a"], [10]⟩) := by
  decide

/-- C4 (amended): for every non-zero read request (`size ≠ 0`, `count ≠ 0`),
the read fails whenever the cursor offset is at or past the total logical
size; and — provided `size·count` and `offset + size·count` stay within
`max_int64` (otherwise the overflow guards reject the request even below the
end) and every transport read succeeds — a read below the end returns exactly
`min(size·count, total − offset)` bytes. -/
theorem C4_read_clamp_amended :
    (∀ (dl : Download) (r : Reader) (size count : Nat),
      size ≠ 0 → count ≠ 0 → r.offset_ ≥ r.total_size_ →
      (driver_fread dl r size count).1 = kBadSize) ∧
    (∀ (store : String → Option Bytes) (p0 : Bytes) (ps : List Bytes)
        (names : List String) (hlen : Nat) (bucket pat : String) (offN size count : Nat),
      names.length = ps.length + 1 →
      (∀ i, i < ps.length + 1 → store (names.getD i "") = some ((p0 :: ps).getD i [])) →
      (∀ i, 1 ≤ i → i < ps.length + 1 → hlen ≤ ((p0 :: ps).getD i []).length) →
      size ≠ 0 → count ≠ 0 →
      size * count ≤ 2 ^ 63 - 1 →
      offN + size * count ≤ 2 ^ 63 - 1 →
      offN < totalLogical hlen (p0 :: ps) →
      (driver_fread (storeDownload store)
        ⟨bucket, pat, (offN : Int), (hlen : Int), names,
          castList (cumulOf hlen (p0 :: ps))⟩ size count).1 =
        ((min (size * count) (totalLogical hlen (p0 :: ps) - offN) : Nat) : Int)) := by
  constructor
  · intro dl r size count hsz hcnt hoff
    rw [driver_fread, if_neg hsz, if_neg hcnt]
    by_cases hov : willSizeCountProductOverflow size count
    · rw [if_pos hov]
    · rw [if_neg hov]
      by_cases hbig : r.offset_ > maxInt64 - ((size * count : Nat) : Int)
      · rw [if_pos hbig]
      · rw [if_neg hbig, if_pos hoff]
  · intro store p0 ps names hlen bucket pat offN size count hnames hstore hH hsz hcnt
      hprod hsum hoff
    have hov : willSizeCountProductOverflow size count = false := by
      rw [willSizeCountProductOverflow]
      simp only [Bool.or_eq_false_iff, decide_eq_false_iff_not, not_lt]
      constructor
      · rw [Nat.le_div_iff_mul_le (Nat.pos_of_ne_zero hsz)]
        calc count * size = size * count := Nat.mul_comm count size
          _ ≤ 2 ^ 63 - 1 := hprod
      · rw [Nat.le_div_iff_mul_le (Nat.pos_of_ne_zero hcnt)]
        exact hprod
    have htotr : Reader.total_size_
        ⟨bucket, pat, (offN : Int), (hlen : Int), names,
          castList (cumulOf hlen (p0 :: ps))⟩ =
        ((totalLogical hlen (p0 :: ps) : Nat) : Int) := by
      rw [Reader.total_size_, castList_getLastD, totalLogical]
    rw [driver_fread, if_neg hsz, if_neg hcnt, hov, if_neg (by simp)]
    rw [if_neg (by
      simp only [maxInt64]
      push_cast
      omega)]
    rw [htotr]
    rw [if_neg (by
      push_cast
      omega)]
    have hclamp : (if ((offN : Nat) : Int) + ((size * count : Nat) : Int) >
          ((totalLogical hlen (p0 :: ps) : Nat) : Int) then
          ((totalLogical hlen (p0 :: ps) : Nat) : Int) - ((offN : Nat) : Int)
        else ((size * count : Nat) : Int)) =
        ((min (size * count) (totalLogical hlen (p0 :: ps) - offN) : Nat) : Int) := by
      by_cases hgt : ((offN : Nat) : Int) + ((size * count : Nat) : Int) >
          ((totalLogical hlen (p0 :: ps) : Nat) : Int)
      · rw [if_pos hgt]
        push_cast at hgt ⊢
        omega
      · rw [if_neg hgt]
        push_cast at hgt ⊢
        omega
    rw [hclamp]
    have hread := readBytesInFile_spec store p0 ps names hlen bucket pat offN
      (min (size * count) (totalLogical hlen (p0 :: ps) - offN)) hnames hstore hH
      (by
        have h1 : 0 < size * count := Nat.mul_pos (Nat.pos_of_ne_zero hsz)
          (Nat.pos_of_ne_zero hcnt)
        omega)
      (by omega)
    simp only [hread]
    simp

/-- Witness for C4: two parts `[1,2,3]` and `[7,8,4,5]` with a 2-byte shared
header (total logical size 5); at cursor 1, a request of `2 × 3 = 6` bytes is
clamped to `min(6, 5 − 1) = 4`. -/
theorem C4_read_clamp_witness :
    (1 < totalLogical 2 [[1, 2, 3], [7, 8, 4, 5]]) ∧
      (driver_fread
        (storeDownload (fun n =>
          if n = "a" then some [1, 2, 3] else if n = "b" then some [7, 8, 4, 5] else none))
        ⟨"bkt", "p*", 1, 2, ["a", "b"], castList (cumulOf 2 [[1, 2, 3], [7, 8, 4, 5]])⟩
        2 3).1 =
        ((min (2 * 3) (totalLogical 2 [[1, 2, 3], [7, 8, 4, 5]] - 1) : Nat) : Int) :=
  ⟨by decide,
    (C4_read_clamp_amended).2
      (fun n =>
        if n = "a" then some [1, 2, 3] else if n = "b" then some [7, 8, 4, 5] else none)
      [1, 2, 3] [[7, 8, 4, 5]] ["a", "b"] 2 "bkt" "p*" 1 2 3
      (by decide) (by decide) (by decide) (by decide) (by decide) (by decide) (by decide)
      (by decide)⟩
